import Mathlib

/-!
Verification development for `qr_labels.py`, a batch label-sheet generator.

The program is shallowly embedded here.  Python strings are modelled as
`List Char`; machine integers are modelled as `Nat`/`Int`; the floating-point
geometry of the renderer is modelled over `ℚ`; fallible code returns `Except`.
The external collaborators (the `labels` sheet engine, the reportlab shape
measurement, the QR encoder) are abstracted as explicit data/oracles, exactly
at the interface the source uses.

`textwrap.wrap` (Python standard library, called by `break_word`) is embedded
following CPython's `textwrap.TextWrapper` with the default options the
program uses (`expand_tabs`, `replace_whitespace`, `drop_whitespace`,
`break_long_words`, `break_on_hyphens` all true, no indents, `max_lines=None`).
Word-character classes of the `wordsep_re` regex are embedded for the ASCII
range.
-/

set_option maxRecDepth 4000

namespace QrLabels

/-- Python strings are modelled as lists of characters. -/
abbrev Str := List Char

/-- The set of characters stripped by Python `str.rstrip()` / `str.strip()`
(`str.isspace`): ASCII whitespace, the file/group/record/unit separators, and
the Unicode space characters. -/
def pyIsSpace (c : Char) : Bool :=
  c == ' ' || c == '\t' || c == '\n' || c.toNat == 11 || c.toNat == 12 ||
  c.toNat == 13 || (28 ≤ c.toNat && c.toNat ≤ 31) || c.toNat == 133 ||
  c.toNat == 160 || c.toNat == 5760 || (8192 ≤ c.toNat && c.toNat ≤ 8202) ||
  c.toNat == 8232 || c.toNat == 8233 || c.toNat == 8239 || c.toNat == 8287 ||
  c.toNat == 12288

/-- The whitespace set of Python `textwrap` (`string.whitespace`):
tab, newline, vertical tab, form feed, carriage return, space. -/
def twIsWs (c : Char) : Bool :=
  c == '\t' || c == '\n' || c.toNat == 11 || c.toNat == 12 ||
  c.toNat == 13 || c == ' '

/-- Python `str.rstrip()` with no argument: drop the maximal run of
whitespace characters from the right end. -/
def rstrip (s : Str) : Str := s.rdropWhile pyIsSpace

/-- Loop body of `chunk_str`: the `idx`-th produced chunk.  The slice
`cstr[idx*max_len : idx*max_len + max_len]` is right-stripped, then (for every
chunk but the first) one leading space, if present, is removed (`i[1:]`). -/
def chunkAt (cstr : Str) (max_len idx : Nat) : Str :=
  if idx = 0 then rstrip ((cstr.drop (idx * max_len)).take max_len)
  else if (rstrip ((cstr.drop (idx * max_len)).take max_len)).head? = some ' ' then
    (rstrip ((cstr.drop (idx * max_len)).take max_len)).tail
  else rstrip ((cstr.drop (idx * max_len)).take max_len)

/-- `chunk_str` from `qr_labels.py` (lines 28–38): cut `cstr` into
`ceil(len/max_len)` consecutive slices of `max_len` characters, right-strip
each slice, and remove one leading space from every slice except the first.
(Python computes the slice count by `math.ceil` on a float division; this is
the exact ceiling for all feasible lengths.  `max_len = 0` raises
`ZeroDivisionError` in Python; the theorems assume `0 < max_len` where the
count matters.) -/
def chunk_str (cstr : Str) (max_len : Nat) : List Str :=
  let chunks := (cstr.length + max_len - 1) / max_len
  (List.range chunks).map (chunkAt cstr max_len)

/-! ### Embedding of CPython `textwrap` (default options)

`break_word` delegates to `textwrap.wrap(line, max_len)`.  The embedding
below follows CPython's `TextWrapper` with its defaults: `expand_tabs=True`
(tab size 8), `replace_whitespace=True`, `drop_whitespace=True`,
`break_long_words=True`, `break_on_hyphens=True`, empty indents,
`max_lines=None`.  The `wordsep_re` regular expression is embedded
operationally (`nextChunk` below); its `\w` and letter classes are embedded
for the ASCII range. -/

/-- Python `str.expandtabs(8)`: replace each tab with spaces up to the next
multiple of 8; the column counter resets after a newline or carriage return. -/
def expandTabs : Str → Nat → Str
  | [], _ => []
  | c :: cs, col =>
    if c == '\t' then
      List.replicate (8 - col % 8) ' ' ++ expandTabs cs (col + (8 - col % 8))
    else if c == '\n' || c == '\r' then c :: expandTabs cs 0
    else c :: expandTabs cs (col + 1)

/-- `TextWrapper.unicode_whitespace_trans`: map each `textwrap` whitespace
character to a plain space. -/
def translateWs (c : Char) : Char := if twIsWs c then ' ' else c

/-- `TextWrapper._munge_whitespace`: expand tabs, then replace whitespace. -/
def munge (text : Str) : Str := (expandTabs text 0).map translateWs

/-- `\w` of Python `re` (ASCII range): letters, digits, underscore. -/
def isWordChar (c : Char) : Bool := c.isAlphanum || c == '_'

/-- The `letter` class `[^\d\W]` of `wordsep_re`: word chars except digits. -/
def isLetter (c : Char) : Bool := isWordChar c && !c.isDigit

/-- The `word_punct` class `[\w!"'&.,?]` of `wordsep_re`. -/
def isWordPunct (c : Char) : Bool :=
  isWordChar c || c == '!' || c == '"' || c == '\'' || c == '&' ||
  c == '.' || c == ',' || c == '?'

/-- Lookbehind of the hyphenated-word branch of `wordsep_re`, applied to the
reversed left context: `(?<=[letter][letter]-)` or `(?<=[letter]-[letter]-)`
checked just after the candidate hyphen (which is the head of `ctx`'s
continuation, so here the two/three characters before the hyphen). -/
def hyLookbehind (ctx : Str) : Bool :=
  (match ctx with
   | a :: b :: _ => isLetter a && isLetter b
   | _ => false) ||
  (match ctx with
   | a :: b :: c :: _ => isLetter a && (b == '-') && isLetter c
   | _ => false)

/-- Lookahead of the hyphenated-word branch: `(?=[letter]-?[letter])`. -/
def hyLookahead (s : Str) : Bool :=
  match s with
  | x :: y :: rest =>
    isLetter x &&
      (isLetter y ||
        ((y == '-') && (match rest with | z :: _ => isLetter z | _ => false)))
  | _ => false

/-- Lookahead `(?=-{2,}\w)`: a run of at least two hyphens followed by a word
character (since `-` is not a word character, only the full run can match). -/
def emDashLookahead (s : Str) : Bool :=
  (2 ≤ (s.takeWhile (fun c => c == '-')).length) &&
  (match s.dropWhile (fun c => c == '-') with
   | z :: _ => isWordChar z
   | _ => false)

/-- Whether the character just before the current position (the head of the
reversed left context) is in the `word_punct` class. -/
def headIsWordPunct : Str → Bool
  | a :: _ => isWordPunct a
  | [] => false

/-- The em-dash alternative `(?<=word_punct)-{2,}(?=\w)` of `wordsep_re`,
tested at a scan position whose reversed left context is `prev`. -/
def emDashStart (prev : Str) (s : Str) : Bool :=
  headIsWordPunct prev && emDashLookahead s

/-- The lazy `[^ \t\n...]+?` word alternative of `wordsep_re`: consume
non-whitespace characters one at a time (`acc` is the reversed consumed
candidate, nonempty; `prev` the reversed context before the match) until the
first position where one of the three terminators fires, in the regex's
alternation order: hyphenated-word break (consuming the hyphen), end of word
(`(?=\s|\Z)`), or em-dash lookahead (`(?<=word_punct)(?=-{2,}\w)`). -/
def grabWord (prev : Str) : Str → Str → Str × Str
  | acc, [] => (acc.reverse, [])
  | acc, c :: cs =>
    if (c == '-') && hyLookbehind (acc ++ prev) && hyLookahead cs then
      (acc.reverse ++ [c], cs)
    else if twIsWs c then (acc.reverse, c :: cs)
    else if headIsWordPunct acc && emDashLookahead (c :: cs) then
      (acc.reverse, c :: cs)
    else grabWord prev (c :: acc) cs

/-- One match of `wordsep_re` at the current scan position (`prev` = reversed
text already consumed): a whitespace run, an em-dash run, or a word chunk.
Returns the chunk and the remaining text. -/
def nextChunk (prev : Str) (s : Str) : Str × Str :=
  match s with
  | [] => ([], [])
  | c :: cs =>
    if twIsWs c then
      ((c :: cs).takeWhile twIsWs, (c :: cs).dropWhile twIsWs)
    else if emDashStart prev (c :: cs) then
      ((c :: cs).takeWhile (fun x => x == '-'), (c :: cs).dropWhile (fun x => x == '-'))
    else grabWord prev [c] cs

/-- `TextWrapper._split`: successive `wordsep_re` matches tile the text, and
`re.split` with one capturing group returns exactly those matches (the gaps
are empty and are filtered out).  `fuel` bounds the recursion; every chunk is
nonempty, so `fuel = s.length` suffices. -/
def splitChunksF : Nat → Str → Str → List Str
  | 0, _, _ => []
  | _ + 1, _, [] => []
  | fuel + 1, prev, c :: cs =>
    ((nextChunk prev (c :: cs)).1) ::
      splitChunksF fuel ((nextChunk prev (c :: cs)).1.reverse ++ prev)
        (nextChunk prev (c :: cs)).2

/-- `TextWrapper._split` on a munged text. -/
def splitChunks (s : Str) : List Str := splitChunksF s.length [] s

/-- Total length of a chunk list. -/
def sumLen (l : List Str) : Nat := (l.map List.length).sum

/-- Python `str.rfind('-', 0, hi)` specialised: the largest index of `'-'`
in `l` (which is already the sliced search window), if any. -/
def rfindHyphen (l : Str) : Option Nat :=
  match l.reverse.findIdx? (fun c => c == '-') with
  | some r => some (l.length - 1 - r)
  | none => none

/-- `space_left` of `TextWrapper._handle_long_word`. -/
def space_left (width curLen : Nat) : Nat :=
  if width < 1 then 1 else width - curLen

/-- The break offset `end` chosen by `TextWrapper._handle_long_word`
(`break_long_words` and `break_on_hyphens` both true): break after the last
hyphen inside the window if there are non-hyphens before it, else at
`space_left`. -/
def hlwEnd (width curLen : Nat) (chunk : Str) : Nat :=
  if space_left width curLen < chunk.length then
    match rfindHyphen (chunk.take (space_left width curLen)) with
    | some hy =>
      if 0 < hy ∧ (chunk.take hy).any (fun c => !(c == '-')) then hy + 1
      else space_left width curLen
    | none => space_left width curLen
  else space_left width curLen

/-- `TextWrapper._handle_long_word`: returns the piece appended to the
current line and the remainder left at the head of the chunk list. -/
def handle_long_word (width curLen : Nat) (chunk : Str) : Str × Str :=
  (chunk.take (hlwEnd width curLen chunk), chunk.drop (hlwEnd width curLen chunk))

/-- The greedy inner loop of `_wrap_chunks`: move chunks into the current
line while they fit within `width`. -/
def fillLine (width : Nat) : Nat → List Str → List Str × List Str
  | _, [] => ([], [])
  | curLen, ch :: rest =>
    if curLen + ch.length ≤ width then
      ((ch :: (fillLine width (curLen + ch.length) rest).1),
        (fillLine width (curLen + ch.length) rest).2)
    else ([], ch :: rest)

/-- `_wrap_chunks`: drop a leading all-whitespace chunk when at least one
line has been emitted already (`drop_whitespace`; Python tests
`chunks[-1].strip() == ''`). -/
def dropLeadingWs (hasLines : Bool) (chunks : List Str) : List Str :=
  match hasLines, chunks with
  | true, ch :: rest => if ch.all pyIsSpace then rest else ch :: rest
  | _, chs => chs

/-- `_wrap_chunks`: if the chunk at the head of the remainder is longer than
the full width, break it with `_handle_long_word`. -/
def afterFill (width : Nat) (cur rest : List Str) : List Str × List Str :=
  match rest with
  | ch :: tl =>
    if width < ch.length then
      (cur ++ [(handle_long_word width (sumLen cur) ch).1],
        (handle_long_word width (sumLen cur) ch).2 :: tl)
    else (cur, ch :: tl)
  | [] => (cur, [])

/-- `_wrap_chunks`: drop a trailing all-whitespace chunk from the current
line (`drop_whitespace`). -/
def dropTrailingWs (cur : List Str) : List Str :=
  match cur.getLast? with
  | some last => if last.all pyIsSpace then cur.dropLast else cur
  | none => cur

/-- One iteration of the outer `while chunks:` loop of `_wrap_chunks`:
returns the emitted line, if any, and the remaining chunks. -/
def wrapStep (width : Nat) (hasLines : Bool) (chunks : List Str) :
    Option Str × List Str :=
  (if (dropTrailingWs (afterFill width
        (fillLine width 0 (dropLeadingWs hasLines chunks)).1
        (fillLine width 0 (dropLeadingWs hasLines chunks)).2).1).isEmpty then none
   else some (dropTrailingWs (afterFill width
        (fillLine width 0 (dropLeadingWs hasLines chunks)).1
        (fillLine width 0 (dropLeadingWs hasLines chunks)).2).1).flatten,
   (afterFill width
        (fillLine width 0 (dropLeadingWs hasLines chunks)).1
        (fillLine width 0 (dropLeadingWs hasLines chunks)).2).2)

/-- The outer loop of `_wrap_chunks`.  Each iteration strictly decreases
`sumLen chunks + chunks.length`, so that much fuel suffices. -/
def wrapLoopF (width : Nat) : Nat → Bool → List Str → List Str
  | 0, _, _ => []
  | _ + 1, _, [] => []
  | fuel + 1, hasLines, c :: cs =>
    match wrapStep width hasLines (c :: cs) with
    | (some line, rest) => line :: wrapLoopF width fuel true rest
    | (none, rest) => wrapLoopF width fuel hasLines rest

/-- `textwrap.wrap(text, width)` with the default options. -/
def wrap (text : Str) (width : Nat) : List Str :=
  wrapLoopF width
    (sumLen (splitChunks (munge text)) + (splitChunks (munge text)).length + 1)
    false (splitChunks (munge text))

/-- `break_word` from `LabelData.__init__` (lines 78–84): word-preserving
wrapping of each paragraph fragment via `textwrap.wrap`, concatenated. -/
def break_word (max_len : Nat) (lines : List Str) : List Str :=
  (lines.map (fun line => wrap line max_len)).flatten

/-- `break_any` from `LabelData.__init__` (lines 86–92): keep a fragment that
already fits, otherwise hard-break it with `chunk_str`. -/
def break_any (max_len : Nat) (lines : List Str) : List Str :=
  (lines.map (fun line =>
    if line.length ≤ max_len then [line] else chunk_str line max_len)).flatten

/-! ### Data model (`LabelMeta`, `LabelLine`, `LabelData`) -/

/-- Geometry record of the external `labels.Specification` collaborator:
plain data, dimensions in millimetres modelled over `ℚ`.  Field order:
sheet_width, sheet_height, columns, rows, label_width, label_height,
corner_radius, left_margin, right_margin, top_margin, left_padding,
right_padding, top_padding, bottom_padding, row_gap. -/
structure Specification where
  sheet_width : ℚ
  sheet_height : ℚ
  columns : Nat
  rows : Nat
  label_width : ℚ
  label_height : ℚ
  corner_radius : ℚ
  left_margin : ℚ
  right_margin : ℚ
  top_margin : ℚ
  left_padding : ℚ
  right_padding : ℚ
  top_padding : ℚ
  bottom_padding : ℚ
  row_gap : ℚ
  deriving DecidableEq

/-- `LabelMeta` dataclass (lines 41–53).  Field order: specs, font,
font_size, subtext_font_size, text_line_max_len, max_text_lines,
qr_text_pad, include_timestamp. -/
structure LabelMeta where
  specs : Specification
  font : Str
  font_size : Int
  subtext_font_size : Int
  text_line_max_len : Nat
  max_text_lines : Nat
  qr_text_pad : Int
  include_timestamp : Bool
  deriving DecidableEq

/-- `LabelLine` dataclass (lines 56–60): text, font_name, font_size. -/
structure LabelLine where
  text : Str
  font_name : Str
  font_size : Int
  deriving DecidableEq

/-- `LabelData` (lines 63–66): validated label record. -/
structure LabelData where
  url : Str
  lines : List LabelLine
  meta : LabelMeta
  deriving DecidableEq

/-- `_line_break = '#%'` (line 20): Python `'#%' in text`. -/
def containsLineBreak : Str → Bool
  | [] => false
  | '#' :: '%' :: _ => true
  | _ :: cs => containsLineBreak cs

/-- Python `text.split('#%')`: left-to-right, non-overlapping. -/
def splitLineBreakAux (cur : Str) : Str → List Str
  | [] => [cur.reverse]
  | '#' :: '%' :: cs => cur.reverse :: splitLineBreakAux [] cs
  | c :: cs => splitLineBreakAux (c :: cur) cs

/-- Python `text.split('#%')`. -/
def splitLineBreak (text : Str) : List Str := splitLineBreakAux [] text

/-- `LabelData.__init__` lines 73–76: the paragraph fragments — split the
caption on the explicit line-break token and right-strip each fragment, or
right-strip the whole caption if the token is absent. -/
def text_lines (text : Str) : List Str :=
  if containsLineBreak text then (splitLineBreak text).map rstrip
  else [rstrip text]

/-- `LabelData.__init__` lines 94–100: the chosen broken lines.  The global
`_args.break_on_any` flag is passed explicitly.  In default mode the
word-preserving break is tried first; if it yields more lines than
`max_text_lines`, the hard break is recomputed from the original fragments. -/
def broken_lines (break_on_any : Bool) (label_meta : LabelMeta) (text : Str) :
    List Str :=
  if break_on_any then break_any label_meta.text_line_max_len (text_lines text)
  else
    if (break_word label_meta.text_line_max_len (text_lines text)).length >
        label_meta.max_text_lines then
      break_any label_meta.text_line_max_len (text_lines text)
    else break_word label_meta.text_line_max_len (text_lines text)

/-- `LabelData.__init__` (lines 68–108).  `ValueError` becomes
`Except.error`; `today` stands for `datetime.now().strftime("%y-%m-%d")`,
the only impure input.  The timestamp line, when enabled, is appended after
the line-count check. -/
def LabelData.init (break_on_any : Bool) (url text : Str)
    (label_meta : LabelMeta) (today : Str) : Except Str LabelData :=
  if (broken_lines break_on_any label_meta text).length >
      label_meta.max_text_lines then
    Except.error (("Text too long: ").toList ++ text)
  else
    Except.ok
      ⟨url,
        ((broken_lines break_on_any label_meta text).map
          (fun line => LabelLine.mk line label_meta.font label_meta.font_size)) ++
        (if label_meta.include_timestamp then
          [LabelLine.mk today label_meta.font label_meta.subtext_font_size]
        else []),
        label_meta⟩

/-! ### Input parser: URL pattern and `process_args` (lines 134, 149–177) -/

/-- The mandatory middle group `(.+[^/.]+\.[^/.]+)` of
`_rx_url = re.compile(r'(https?://)?(.+[^/.]+\.[^/.]+)(/?.+)?')` (line 134),
matched against a prefix of `s`.  Since `re.match` anchors only at the start
and the trailing group is optional, the whole pattern matches at a position
iff this group does: there are `1 ≤ i < j` with a dot at `j`, a nonempty
prefix `s[0:i]` free of newlines (`.+`), a nonempty run `s[i:j]` free of `/`
and `.` (`[^/.]+`), and a character `s[j+1]` that is neither `/` nor `.`
(`[^/.]+` needs one character; more never hurt). -/
def rx_url_body (s : Str) : Bool :=
  (List.range s.length).any (fun j =>
    (s.getD j ' ' == '.') && decide (j + 1 < s.length) &&
    !(s.getD (j + 1) ' ' == '/') && !(s.getD (j + 1) ' ' == '.') &&
    ((List.range j).any (fun i =>
      decide (1 ≤ i) &&
      ((s.take i).all (fun c => !(c == '\n'))) &&
      (((s.drop i).take (j - i)).all (fun c => !(c == '/') && !(c == '.'))))))

/-- `_rx_url.match(url)`: `none` when the pattern does not match; `some g1`
when it matches, where `g1` says whether group 1 (the scheme) participated.
The regex engine first tries the optional scheme group (with the greedy
`s?`, so `https://` before `http://`); if the rest fails after the scheme,
it backtracks and retries with the group skipped, matching the body against
the whole string — in that case `m.group(1)` is `None`. -/
def rx_url_match (url : Str) : Option Bool :=
  if (("https://").toList).isPrefixOf url then
    if rx_url_body (url.drop 8) then some true
    else if rx_url_body url then some false
    else none
  else if (("http://").toList).isPrefixOf url then
    if rx_url_body (url.drop 7) then some true
    else if rx_url_body url then some false
    else none
  else if rx_url_body url then some false else none

/-- Python `data_str.split('~')` (line 159), specialised to the one-character
separator: left-to-right scan. -/
def splitTildeAux (cur : Str) : Str → List Str
  | [] => [cur.reverse]
  | '~' :: cs => cur.reverse :: splitTildeAux [] cs
  | c :: cs => splitTildeAux (c :: cur) cs

/-- Python `data_str.split('~')`. -/
def splitTilde (s : Str) : List Str := splitTildeAux [] s

/-- Per-token body of `Args.process_args` (lines 158–175): split the token on
`'~'` into exactly two fields or fail (`Invalid data`); match the URL field
against `_rx_url` or fail (`Invalid url`); prepend `https://` when the
scheme group did not participate; then build the `LabelData` record. -/
def process_datum (break_on_any : Bool) (label_meta : LabelMeta) (today : Str)
    (data_str : Str) : Except Str LabelData :=
  if (splitTilde data_str).length ≠ 2 then
    Except.error (("Invalid data: ").toList ++ data_str)
  else
    match rx_url_match ((splitTilde data_str).getD 0 []) with
    | none =>
      Except.error (("Invalid url: ").toList ++ (splitTilde data_str).getD 0 [])
    | some g1 =>
      LabelData.init break_on_any
        (if g1 then (splitTilde data_str).getD 0 []
        else ("https://").toList ++ (splitTilde data_str).getD 0 [])
        ((splitTilde data_str).getD 1 []) label_meta today

/-- The registered `avery-5160` template (lines 111–132). -/
def avery5160 : LabelMeta :=
  ⟨⟨215.9, 279.4, 3, 10, 66, 25.4, 2, 5, 5, 13, 0, 1, 1, 1, 0⟩,
    ("Roboto").toList, 9, 9 - 3, 21, 4, 3, true⟩

/-- A word made of 21 copies of `'a'`. -/
def word21a : Str := List.replicate 21 ('a')

/-- A word made of 11 copies of `'b'`. -/
def word11b : Str := List.replicate 11 ('b')

/-- Five 21-character words separated by single spaces (109 characters). -/
def caption5x21 : Str :=
  word21a ++ ' ' :: word21a ++ ' ' :: word21a ++ ' ' :: word21a ++ ' ' :: word21a

/-- Five 11-character words separated by single spaces (59 characters). -/
def caption5x11 : Str :=
  word11b ++ ' ' :: word11b ++ ' ' :: word11b ++ ' ' :: word11b ++ ' ' :: word11b

/-- Four 21-character words separated by single spaces (87 characters). -/
def caption4x21 : Str :=
  word21a ++ ' ' :: word21a ++ ' ' :: word21a ++ ' ' :: word21a

deriving instance DecidableEq for Except

/-! ### Words of a string (split at `textwrap` whitespace) -/

/-- Helper for `wordsOf`: `cur` is the reversed word being accumulated. -/
def wordsOfAux (cur : Str) : Str → List Str
  | [] => if cur.isEmpty then [] else [cur.reverse]
  | c :: cs =>
    if twIsWs c then
      if cur.isEmpty then wordsOfAux [] cs else cur.reverse :: wordsOfAux [] cs
    else wordsOfAux (c :: cur) cs

/-- The words of a string: its maximal nonempty runs of non-whitespace
characters, in order. -/
def wordsOf (s : Str) : List Str := wordsOfAux [] s

/-- A chunk consisting only of plain spaces. -/
def isSpaceChunk (ch : Str) : Bool := ch.all (fun c => c == ' ')

/-- A well-formed chunk for the wrap loop: nonempty, and either all plain
spaces or a word (no Python-whitespace characters) fitting in `width`. -/
def GoodChunk (width : Nat) (ch : Str) : Prop :=
  ch ≠ [] ∧ ((∀ c ∈ ch, c = ' ') ∨
    ((∀ c ∈ ch, pyIsSpace c = false) ∧ ch.length ≤ width))

/-- Invariant of the wrap loop: good chunks with no two adjacent words. -/
def ChunksInv (width : Nat) (L : List Str) : Prop :=
  (∀ ch ∈ L, GoodChunk width ch) ∧
  L.Chain' (fun a b => isSpaceChunk a = true ∨ isSpaceChunk b = true)

/-! ### Renderer: `draw_address` (lines 192–230)

The reportlab measurements (`shapes.String(...).getBounds()`,
`Group().getBounds()`, `label.getBounds()`, `qr.QrCodeWidget(...).getBounds()`)
are external collaborators; they are abstracted as an explicit oracle of
measurement functions over `ℚ` (the Python floats).  `assert data` is
vacuous for a passed record; `if not line: continue` never fires because a
dataclass instance is always truthy; the in-place `data.lines.reverse()` is
modelled by reversing a copy. -/

/-- Measurement oracle for one cell: the cell drawing's bounds, the top
bound of a text shape placed at baseline `y`, the bounds of the assembled
group, and the QR widget's intrinsic bounds for a payload. -/
structure DrawOracle where
  labelBounds : ℚ × ℚ × ℚ × ℚ
  stringTop : ℚ → LabelLine → ℚ
  groupBounds : List (ℚ × LabelLine) → ℚ × ℚ × ℚ × ℚ
  qrBounds : Str → ℚ × ℚ × ℚ × ℚ

/-- The drawing loop of `draw_address` (lines 201–209): place each line at
`x = 0` and the running baseline `y` (starting at 3), advancing `y` to the
shape's top bound plus 3.  Returns the placed shapes and the final `y`. -/
def placeLines (O : DrawOracle) : List LabelLine → ℚ → List (ℚ × LabelLine) × ℚ
  | [], y => ([], y)
  | l :: ls, y =>
    ((y, l) :: (placeLines O ls (O.stringTop y l + 3)).1,
      (placeLines O ls (O.stringTop y l + 3)).2)

/-- `text_x = (height * 1.01) + data.meta.qr_text_pad` (line 198). -/
def text_x (height : ℚ) (meta : LabelMeta) : ℚ :=
  height * 1.01 + (meta.qr_text_pad : ℚ)

/-- The group contents of `draw_address` for a record (lines painted in
reversed order, bottom to top). -/
def draw_placed (O : DrawOracle) (data : LabelData) : List (ℚ × LabelLine) :=
  (placeLines O data.lines.reverse 3).1

/-- The final `y` of the drawing loop. -/
def draw_y (O : DrawOracle) (data : LabelData) : ℚ :=
  (placeLines O data.lines.reverse 3).2

/-- The two `assert` payloads of lines 214–215: the offending record, the
measured text bound and the cell-drawing bound. -/
inductive DrawAssert where
  | horizontal (record : LabelData) (measured limit : ℚ)
  | vertical (record : LabelData) (measured limit : ℚ)
  deriving DecidableEq

/-- The primitives emitted for one cell when the bound checks pass: the
placed text shapes, the group translation `(text_x, height - y)`, the scaled
QR drawing's width/height `(b[2]-b[0])/1.1`, `(b[3]-b[1])/1.1` and its
affine transform `[height/w, 0, 0, height/h, 0, 0]` (lines 217–230). -/
structure DrawOut where
  placed : List (ℚ × LabelLine)
  group_translate : ℚ × ℚ
  qr_w : ℚ
  qr_h : ℚ
  qr_transform : List ℚ
  deriving DecidableEq

/-- `draw_address(label, width, height, data)` (lines 192–230): build the
text group, measure it, check the horizontal bound
`text_x_bound ≤ label_x_bound - text_x` and the vertical bound
`text_y_bound ≤ label_y_bound` (lines 214–215) before adding anything to the
label, and only then emit the QR drawing and the translated group. -/
def draw_address (O : DrawOracle) (width height : ℚ) (data : LabelData) :
    Except DrawAssert DrawOut :=
  if (O.groupBounds (draw_placed O data)).2.2.1 >
      (O.labelBounds).2.2.1 - text_x height data.meta then
    Except.error (DrawAssert.horizontal data
      (O.groupBounds (draw_placed O data)).2.2.1 (O.labelBounds).2.2.1)
  else if (O.groupBounds (draw_placed O data)).2.2.2 > (O.labelBounds).2.2.2 then
    Except.error (DrawAssert.vertical data
      (O.groupBounds (draw_placed O data)).2.2.2 (O.labelBounds).2.2.2)
  else
    Except.ok
      ⟨draw_placed O data,
        (text_x height data.meta, height - draw_y O data),
        ((O.qrBounds data.url).2.2.1 - (O.qrBounds data.url).1) / 1.1,
        ((O.qrBounds data.url).2.2.2 - (O.qrBounds data.url).2.1) / 1.1,
        [height / (((O.qrBounds data.url).2.2.1 - (O.qrBounds data.url).1) / 1.1),
          0, 0,
          height / (((O.qrBounds data.url).2.2.2 - (O.qrBounds data.url).2.1) / 1.1),
          0, 0]⟩

/-- All-zero geometry, for the witness oracle. -/
def testSpec : Specification := ⟨0, 0, 0, 0, 0, 0, 0, 0, 0, 0, 0, 0, 0, 0, 0⟩

/-- A minimal template with zero padding, for the witness oracle. -/
def testMeta : LabelMeta := ⟨testSpec, [], 0, 0, 1, 1, 0, false⟩

/-- A record with no text lines, for the witness oracle. -/
def testData : LabelData := ⟨[], [], testMeta⟩

/-- A measurement oracle whose text group measures wider than the cell. -/
def testOracle : DrawOracle :=
  ⟨(0, 0, 0, 0), fun y _ => y, fun _ => (0, 0, 1, 0), fun _ => (0, 0, 0, 0)⟩

theorem twIsWs_pyIsSpace {c : Char} (h : twIsWs c = true) : pyIsSpace c = true := by
  simp only [twIsWs, Bool.or_eq_true, beq_iff_eq] at h
  rcases h with ((((h | h) | h) | h) | h) | h <;>
    simp [pyIsSpace, h]

@[simp] theorem rstrip_nil : rstrip [] = [] := rfl

theorem rstrip_prefix (s : Str) : (rstrip s).IsPrefix s :=
  List.rdropWhile_prefix pyIsSpace s

theorem rstrip_length_le (s : Str) : (rstrip s).length ≤ s.length :=
  ( rstrip_prefix s).sublist.length_le

/-- `rstrip` removes a (possibly empty) all-whitespace suffix. -/
theorem rstrip_append (s : Str) :
    ∃ t : Str, s = rstrip s ++ t ∧ ∀ c ∈ t, pyIsSpace c = true := by
  refine ⟨(s.reverse.takeWhile pyIsSpace).reverse, ?_, ?_⟩
  · rw [rstrip, List.rdropWhile, ← List.reverse_append,
      List.takeWhile_append_dropWhile, List.reverse_reverse]
  · intro c hc
    exact List.mem_takeWhile_imp (List.mem_reverse.mp hc)

/-- The last character of a right-stripped nonempty string is not whitespace. -/
theorem rstrip_getLast {s : Str} (h : rstrip s ≠ []) :
    pyIsSpace ((rstrip s).getLast h) = false := by
  have := List.rdropWhile_last_not pyIsSpace s h
  simpa using this

theorem rstrip_eq_self_of_getLast {s : Str} (hne : s ≠ [])
    (h : pyIsSpace (s.getLast hne) = false) : rstrip s = s := by
  rw [rstrip, List.rdropWhile_eq_self_iff]
  intro hl
  simp [h]

/-- `rstrip` is idempotent. -/
theorem rstrip_rstrip (s : Str) : rstrip (rstrip s) = rstrip s := by
  by_cases h : rstrip s = []
  · simp [h]
  · exact rstrip_eq_self_of_getLast h (rstrip_getLast h)

theorem chunk_str_getElem (cstr : Str) (max_len i : Nat)
    (h : i < (chunk_str cstr max_len).length) :
    (chunk_str cstr max_len).get ⟨i, h⟩ = chunkAt cstr max_len i := by
  simp [chunk_str] at h ⊢

/-- Every chunk produced by `chunk_str` has length at most `max_len`. -/
theorem chunkAt_length_le (cstr : Str) (max_len idx : Nat) :
    (chunkAt cstr max_len idx).length ≤ max_len := by
  have hslice : ((cstr.drop (idx * max_len)).take max_len).length ≤ max_len := by
    simp [List.length_take]
  have ht : (rstrip ((cstr.drop (idx * max_len)).take max_len)).length ≤ max_len :=
    le_trans (rstrip_length_le _) hslice
  unfold chunkAt
  split
  · exact ht
  · split
    · exact le_trans (List.length_tail _ ▸ Nat.sub_le _ _) ht
    · exact ht

/-- If a string is `rstrip`-fixed, so is its tail. -/
theorem rstrip_cons_fixed {c : Char} {u : Str} (h : rstrip (c :: u) = c :: u) :
    rstrip u = u := by
  rcases u with _ | ⟨d, v⟩
  · rfl
  · have h2 := (List.rdropWhile_eq_self_iff).mp h (by simp)
    rw [rstrip, List.rdropWhile_eq_self_iff]
    intro hl
    rw [List.getLast_cons hl] at h2
    exact h2

/-- Every chunk produced by `chunk_str` is right-stripped. -/
theorem chunkAt_rstripped (cstr : Str) (max_len idx : Nat) :
    rstrip (chunkAt cstr max_len idx) = chunkAt cstr max_len idx := by
  unfold chunkAt
  have hfix := rstrip_rstrip ((cstr.drop (idx * max_len)).take max_len)
  split
  · exact hfix
  · split
    · next hh =>
      rcases hht : rstrip ((cstr.drop (idx * max_len)).take max_len) with _ | ⟨c, u⟩
      · simp [hht]
      · rw [hht] at hh hfix
        simp only [List.head?_cons, Option.some.injEq] at hh
        subst hh
        simpa using rstrip_cons_fixed hfix
    · exact hfix

/-- If `cstr` has no two consecutive spaces, a non-first chunk never begins
with a space: the removed leading space cannot be followed by another one. -/
theorem chunkAt_head_no_space (cstr : Str) (max_len idx : Nat)
    (hnd : ∀ k : Nat, cstr[k]? = some ' ' → cstr[k + 1]? ≠ some ' ')
    (hidx : idx ≠ 0) :
    (chunkAt cstr max_len idx).head? ≠ some ' ' := by
  unfold chunkAt
  rw [if_neg hidx]
  by_cases hh : (rstrip ((cstr.drop (idx * max_len)).take max_len)).head? = some ' '
  · rw [if_pos hh]
    intro hc
    set t := rstrip ((cstr.drop (idx * max_len)).take max_len) with htdef
    obtain ⟨u, hu⟩ : ∃ u, t = ' ' :: u := by
      rcases t with _ | ⟨c, u⟩
      · simp at hh
      · simp only [List.head?_cons, Option.some.injEq] at hh
        exact ⟨u, by rw [hh]⟩
    obtain ⟨v, hv⟩ : ∃ v, u = ' ' :: v := by
      rcases u with _ | ⟨c, v⟩
      · rw [hu] at hc; simp at hc
      · rw [hu] at hc
        simp only [List.tail_cons, List.head?_cons, Option.some.injEq] at hc
        exact ⟨v, by rw [hc]⟩
    obtain ⟨r0, hr0⟩ := rstrip_prefix ((cstr.drop (idx * max_len)).take max_len)
    obtain ⟨r1, hr1⟩ := List.take_prefix max_len (cstr.drop (idx * max_len))
    rw [← htdef] at hr0
    have hdrop : cstr.drop (idx * max_len) = ' ' :: ' ' :: (v ++ r0 ++ r1) := by
      rw [← hr1, ← hr0, hu, hv]
      simp [List.append_assoc]
    have h0 : cstr[idx * max_len]? = some ' ' := by
      have hg := List.getElem?_drop cstr (idx * max_len) 0
      rw [hdrop] at hg
      simpa using hg.symm
    have h1 : cstr[idx * max_len + 1]? = some ' ' := by
      have hg := List.getElem?_drop cstr (idx * max_len) 1
      rw [hdrop] at hg
      simpa using hg.symm
    exact hnd _ h0 h1
  · rw [if_neg hh]
    exact hh

/-- Claim C2 (counterexample): hard-break chunking of the caption
`"aaaa  b"` with `max_len = 4` produces the second line `" b"`, which begins
with a space — a split landing after two consecutive spaces removes only one
of them, so a produced line other than the first can begin with a visible
blank, contrary to the claim. -/
theorem c2_counterexample :
    chunk_str (['a', 'a', 'a', 'a', ' ', ' ', 'b']) 4 =
      [['a', 'a', 'a', 'a'], [' ', 'b']] ∧
    ((chunk_str (['a', 'a', 'a', 'a', ' ', ' ', 'b']) 4).getD 1 []).head? = some ' ' := by
  decide

/-- Claim C2 (amended): for every caption and `max_len`, hard-break chunking
produces only lines of length ≤ `max_len`, every produced line is
right-stripped, and — provided the caption contains no two consecutive
spaces — no produced line except possibly the first begins with a space.
(Only one leading space is removed per chunk, so a break landing after two or
more consecutive spaces does leave a leading blank.) -/
theorem c2_amended (cstr : Str) (max_len : Nat) :
    ∀ i : Nat, ∀ h : i < (chunk_str cstr max_len).length,
      ((chunk_str cstr max_len).get ⟨i, h⟩).length ≤ max_len ∧
      rstrip ((chunk_str cstr max_len).get ⟨i, h⟩) = (chunk_str cstr max_len).get ⟨i, h⟩ ∧
      ((∀ k : Nat, cstr[k]? = some ' ' → cstr[k + 1]? ≠ some ' ') → i ≠ 0 →
        ((chunk_str cstr max_len).get ⟨i, h⟩).head? ≠ some ' ') := by
  intro i h
  rw [chunk_str_getElem]
  exact ⟨chunkAt_length_le cstr max_len i, chunkAt_rstripped cstr max_len i,
    fun hnd hi => chunkAt_head_no_space cstr max_len i hnd hi⟩

/-- Witness for C2 (amended) at the concrete caption `"hey"`, `max_len = 2`:
the second produced chunk is `"y"`. -/
theorem c2_amended_witness :
    ((chunk_str (['h', 'e', 'y']) 2).get ⟨1, by decide⟩).length ≤ 2 ∧
    rstrip ((chunk_str (['h', 'e', 'y']) 2).get ⟨1, by decide⟩) =
      (chunk_str (['h', 'e', 'y']) 2).get ⟨1, by decide⟩ ∧
    ((∀ k : Nat, (['h', 'e', 'y'] : Str)[k]? = some ' ' →
        (['h', 'e', 'y'] : Str)[k + 1]? ≠ some ' ') → 1 ≠ 0 →
      ((chunk_str (['h', 'e', 'y']) 2).get ⟨1, by decide⟩).head? ≠ some ' ') :=
  c2_amended (['h', 'e', 'y']) 2 1 (by decide)

/-! ### Width bound: every wrapped line fits in `width` -/

@[simp] theorem sumLen_nil : sumLen [] = 0 := rfl

@[simp] theorem sumLen_cons (a : Str) (l : List Str) :
    sumLen (a :: l) = a.length + sumLen l := by
  simp [sumLen]

theorem sumLen_append (a b : List Str) : sumLen (a ++ b) = sumLen a + sumLen b := by
  simp [sumLen]

theorem sumLen_dropLast_le (l : List Str) : sumLen l.dropLast ≤ sumLen l := by
  induction l with
  | nil => simp
  | cons a l ih =>
    cases l with
    | nil => simp
    | cons b m =>
      rw [List.dropLast_cons₂, sumLen_cons, sumLen_cons]
      exact Nat.add_le_add_left ih _

theorem fillLine_append (width : Nat) :
    ∀ (curLen : Nat) (chunks : List Str),
      (fillLine width curLen chunks).1 ++ (fillLine width curLen chunks).2 = chunks := by
  intro curLen chunks
  induction chunks generalizing curLen with
  | nil => rfl
  | cons ch rest ih =>
    rw [fillLine]
    split
    · simpa using ih (curLen + ch.length)
    · rfl

theorem fillLine_sum (width : Nat) :
    ∀ (curLen : Nat) (chunks : List Str), curLen ≤ width →
      curLen + sumLen (fillLine width curLen chunks).1 ≤ width := by
  intro curLen chunks
  induction chunks generalizing curLen with
  | nil => intro h; simpa using h
  | cons ch rest ih =>
    intro h
    rw [fillLine]
    split
    · next hfit =>
      have := ih (curLen + ch.length) hfit
      simpa [Nat.add_assoc] using this
    · simpa using h

theorem rfindHyphen_lt {l : Str} {hy : Nat} (h : rfindHyphen l = some hy) :
    hy < l.length := by
  unfold rfindHyphen at h
  split at h
  · next r hfind =>
    have hne : l ≠ [] := by
      intro hnil
      rw [hnil] at hfind
      simp at hfind
    have hlen : 0 < l.length := List.length_pos.mpr hne
    simp only [Option.some.injEq] at h
    omega
  · simp at h

theorem hlwEnd_le (width curLen : Nat) (chunk : Str) :
    hlwEnd width curLen chunk ≤ space_left width curLen := by
  unfold hlwEnd
  split
  · split
    · next hy hfound =>
      split
      · have hlt := rfindHyphen_lt hfound
        have : (chunk.take (space_left width curLen)).length ≤ space_left width curLen := by
          simp [List.length_take]
        omega
      · exact le_refl _
    · exact le_refl _
  · exact le_refl _

theorem handle_piece_le (width curLen : Nat) (chunk : Str)
    (h0 : 0 < width) (hcl : curLen ≤ width) :
    curLen + ((handle_long_word width curLen chunk).1).length ≤ width := by
  have hsl : space_left width curLen = width - curLen := by
    unfold space_left
    rw [if_neg (by omega : ¬width < 1)]
  have hEnd := hlwEnd_le width curLen chunk
  rw [hsl] at hEnd
  have : ((handle_long_word width curLen chunk).1).length ≤ hlwEnd width curLen chunk := by
    unfold handle_long_word
    simp [List.length_take]
  omega

theorem afterFill_sum_le (width : Nat) (cur rest : List Str)
    (h0 : 0 < width) (hcur : sumLen cur ≤ width) :
    sumLen (afterFill width cur rest).1 ≤ width := by
  rcases rest with _ | ⟨ch, tl⟩
  · exact hcur
  · simp only [afterFill]
    split
    · have := handle_piece_le width (sumLen cur) ch h0 hcur
      simpa [sumLen_append] using this
    · exact hcur

theorem dropTrailingWs_sum_le (cur : List Str) :
    sumLen (dropTrailingWs cur) ≤ sumLen cur := by
  unfold dropTrailingWs
  split
  · split
    · exact sumLen_dropLast_le cur
    · exact le_refl _
  · exact le_refl _

theorem flatten_length_sumLen (l : List Str) : l.flatten.length = sumLen l := by
  simp [sumLen, List.length_flatten]

theorem wrapStep_line_le {width : Nat} (h0 : 0 < width) (hasLines : Bool)
    (chunks : List Str) {line : Str}
    (h : (wrapStep width hasLines chunks).1 = some line) :
    line.length ≤ width := by
  unfold wrapStep at h
  split at h
  · exact absurd h (by simp)
  · have hline : line =
        (dropTrailingWs (afterFill width
          (fillLine width 0 (dropLeadingWs hasLines chunks)).1
          (fillLine width 0 (dropLeadingWs hasLines chunks)).2).1).flatten := by
      exact (Option.some.injEq _ _ ▸ h).symm
    rw [hline, flatten_length_sumLen]
    refine le_trans (dropTrailingWs_sum_le _) ?_
    refine afterFill_sum_le width _ _ h0 ?_
    have := fillLine_sum width 0 (dropLeadingWs hasLines chunks) (Nat.zero_le _)
    simpa using this

theorem wrapLoopF_line_le {width : Nat} (h0 : 0 < width) :
    ∀ (fuel : Nat) (hasLines : Bool) (chunks : List Str) (l : Str),
      l ∈ wrapLoopF width fuel hasLines chunks → l.length ≤ width := by
  intro fuel
  induction fuel with
  | zero => intro hasLines chunks l h; simp [wrapLoopF] at h
  | succ fuel ih =>
    intro hasLines chunks l h
    rcases chunks with _ | ⟨c, cs⟩
    · simp [wrapLoopF] at h
    · rw [wrapLoopF] at h
      rcases hstep : wrapStep width hasLines (c :: cs) with ⟨lo, rest⟩
      rw [hstep] at h
      rcases lo with _ | line
      · exact ih hasLines rest l h
      · rcases List.mem_cons.mp h with hl | hl
        · subst hl
          exact wrapStep_line_le h0 hasLines (c :: cs) (by rw [hstep])
        · exact ih true rest l hl

/-- Every line produced by the embedded `textwrap.wrap` fits in `width`. -/
theorem wrap_line_le {width : Nat} (h0 : 0 < width) (text : Str) :
    ∀ l ∈ wrap text width, l.length ≤ width := by
  intro l hl
  exact wrapLoopF_line_le h0 _ _ _ l hl

/-- Every line produced by `break_word` fits in `max_len`. -/
theorem break_word_line_le {max_len : Nat} (h0 : 0 < max_len) (frags : List Str) :
    ∀ l ∈ break_word max_len frags, l.length ≤ max_len := by
  intro l hl
  simp only [break_word, List.mem_flatten, List.mem_map] at hl
  obtain ⟨_, ⟨frag, _, rfl⟩, hmem⟩ := hl
  exact wrap_line_le h0 frag l hmem

/-- Every line produced by `break_any` fits in `max_len`. -/
theorem break_any_line_le (max_len : Nat) (frags : List Str) :
    ∀ l ∈ break_any max_len frags, l.length ≤ max_len := by
  intro l hl
  simp only [break_any, List.mem_flatten, List.mem_map] at hl
  obtain ⟨_, ⟨frag, _, rfl⟩, hmem⟩ := hl
  split at hmem
  · next hfit =>
    rcases List.mem_singleton.mp hmem with rfl
    exact hfit
  · simp only [chunk_str, List.mem_map, List.mem_range] at hmem
    obtain ⟨i, _, rfl⟩ := hmem
    exact chunkAt_length_le frag max_len i

/-! ### The chunks tile the text -/

theorem grabWord_spec (prev : Str) :
    ∀ (s acc : Str), ∃ mid : Str,
      (grabWord prev acc s).1 = acc.reverse ++ mid ∧
      mid ++ (grabWord prev acc s).2 = s := by
  intro s
  induction s with
  | nil =>
    intro acc
    exact ⟨[], by simp [grabWord], rfl⟩
  | cons c cs ih =>
    intro acc
    rw [grabWord]
    split
    · exact ⟨[c], by simp, rfl⟩
    · split
      · exact ⟨[], by simp, rfl⟩
      · split
        · exact ⟨[], by simp, rfl⟩
        · obtain ⟨mid, h1, h2⟩ := ih (c :: acc)
          refine ⟨c :: mid, ?_, ?_⟩
          · rw [h1]
            simp
          · rw [List.cons_append, h2]

theorem nextChunk_spec (prev : Str) (c : Char) (cs : Str) :
    (nextChunk prev (c :: cs)).1 ≠ [] ∧
    (nextChunk prev (c :: cs)).1 ++ (nextChunk prev (c :: cs)).2 = c :: cs := by
  rw [nextChunk]
  split
  · next hws =>
    constructor
    · simp [List.takeWhile_cons_of_pos hws]
    · simp [List.takeWhile_append_dropWhile]
  · split
    · next hed =>
      constructor
      · have h2 : 2 ≤ ((c :: cs).takeWhile (fun x => x == '-')).length := by
          unfold emDashStart emDashLookahead at hed
          simp only [Bool.and_eq_true, decide_eq_true_eq] at hed
          exact hed.2.1
        intro hnil
        simp only [] at hnil
        rw [hnil] at h2
        simp at h2
      · simp [List.takeWhile_append_dropWhile]
    · obtain ⟨mid, h1, h2⟩ := grabWord_spec prev cs [c]
      constructor
      · rw [h1]; simp
      · rw [h1]
        simpa using congrArg (fun l => c :: l) h2

theorem splitChunksF_spec :
    ∀ (fuel : Nat) (prev s : Str), s.length ≤ fuel →
      (splitChunksF fuel prev s).flatten = s ∧
      ∀ ch ∈ splitChunksF fuel prev s, ch ≠ [] := by
  intro fuel
  induction fuel with
  | zero =>
    intro prev s h
    have hs : s = [] := List.length_eq_zero.mp (Nat.le_zero.mp h)
    subst hs
    exact ⟨rfl, by simp [splitChunksF]⟩
  | succ fuel ih =>
    intro prev s h
    rcases s with _ | ⟨c, cs⟩
    · exact ⟨rfl, by simp [splitChunksF]⟩
    · rw [splitChunksF]
      obtain ⟨hne, happ⟩ := nextChunk_spec prev c cs
      have hlensum : (nextChunk prev (c :: cs)).1.length +
          (nextChunk prev (c :: cs)).2.length = cs.length + 1 := by
        have := congrArg List.length happ
        simpa [List.length_append] using this
      have h1 : 1 ≤ (nextChunk prev (c :: cs)).1.length :=
        List.length_pos.mpr hne
      have hrest : (nextChunk prev (c :: cs)).2.length ≤ fuel := by
        simp only [List.length_cons] at h
        omega
      obtain ⟨ihf, ihne⟩ := ih _ _ hrest
      constructor
      · rw [List.flatten_cons, ihf, happ]
      · intro ch hch
        rcases List.mem_cons.mp hch with rfl | hch
        · exact hne
        · exact ihne ch hch

/-- The `wordsep_re` chunks partition the text and are all nonempty. -/
theorem splitChunks_spec (s : Str) :
    (splitChunks s).flatten = s ∧ ∀ ch ∈ splitChunks s, ch ≠ [] :=
  splitChunksF_spec s.length [] s (le_refl _)

/-! ### A caption that fits yields a single line -/

@[simp] theorem dropLeadingWs_false (chunks : List Str) :
    dropLeadingWs false chunks = chunks := by
  cases chunks <;> rfl

@[simp] theorem afterFill_nil (width : Nat) (cur : List Str) :
    afterFill width cur [] = (cur, []) := rfl

theorem fillLine_all (width : Nat) :
    ∀ (chunks : List Str) (curLen : Nat), curLen + sumLen chunks ≤ width →
      fillLine width curLen chunks = (chunks, []) := by
  intro chunks
  induction chunks with
  | nil => intro curLen _; rfl
  | cons ch rest ih =>
    intro curLen h
    rw [fillLine]
    rw [sumLen_cons] at h
    rw [if_pos (by omega), ih (curLen + ch.length) (by omega)]

theorem expandTabs_id (s : Str) (hs : ∀ c ∈ s, pyIsSpace c = true → c = ' ') :
    ∀ col, expandTabs s col = s := by
  induction s with
  | nil => intro col; rfl
  | cons c cs ih =>
    intro col
    have hc : c ≠ '\t' ∧ c ≠ '\n' ∧ c ≠ '\r' := by
      refine ⟨?_, ?_, ?_⟩ <;> intro hcc <;> subst hcc <;>
        simpa using hs _ (List.mem_cons_self _ _) (by decide)
    rw [expandTabs, if_neg (by simp [hc.1]), if_neg (by simp [hc.2.1, hc.2.2]),
      ih (fun x hx hpx => hs x (List.mem_cons_of_mem c hx) hpx) (col + 1)]

theorem munge_id (s : Str) (hs : ∀ c ∈ s, pyIsSpace c = true → c = ' ') :
    munge s = s := by
  unfold munge
  rw [expandTabs_id s hs 0]
  have : ∀ c ∈ s, translateWs c = c := by
    intro c hc
    unfold translateWs
    split
    · next htw => exact (hs c hc (twIsWs_pyIsSpace htw)).symm
    · rfl
  induction s with
  | nil => rfl
  | cons c cs ih =>
    rw [List.map_cons, this c (List.mem_cons_self _ _),
      ih (fun x hx hpx => hs x (List.mem_cons_of_mem c hx) hpx)
        (fun x hx => this x (List.mem_cons_of_mem c hx))]

theorem flatten_getLast? (L : List Str) (hne : ∀ ch ∈ L, ch ≠ []) :
    L.flatten.getLast? = L.getLast?.bind (fun ch => ch.getLast?) := by
  induction L with
  | nil => rfl
  | cons ch L' ih =>
    rcases L' with _ | ⟨d, L''⟩
    · simp
    · have hd : d ≠ [] := hne d (by simp)
      have hflat : (d :: L'').flatten ≠ [] := by
        rw [List.flatten_cons]
        intro hc
        exact hd (List.append_eq_nil.mp hc).1
      rw [List.flatten_cons, List.getLast?_append_of_ne_nil ch hflat,
        ih (fun x hx => hne x (List.mem_cons_of_mem ch hx))]
      rw [List.getLast?_cons_cons]

/-- `wrapStep` on a chunk list that fits entirely within `width`, whose last
chunk has a non-whitespace character: everything becomes one line. -/
theorem wrapStep_single (width : Nat) (chunks : List Str)
    (hsum : sumLen chunks ≤ width)
    (hlast : ∀ last, chunks.getLast? = some last → last.all pyIsSpace = false)
    (hne : chunks ≠ []) :
    wrapStep width false chunks = (some chunks.flatten, []) := by
  unfold wrapStep
  rw [dropLeadingWs_false, fillLine_all width chunks 0 (by omega), afterFill_nil]
  have hdt : dropTrailingWs chunks = chunks := by
    unfold dropTrailingWs
    rcases hgl : chunks.getLast? with _ | last
    · rfl
    · have hl2 := hlast last hgl
      simp [hl2]
  rw [hdt, if_neg (by simp [hne])]

@[simp] theorem wrap_nil (w : Nat) : wrap [] w = [] := rfl

/-- Claim C1: in default mode, `LabelData` construction raises the
`Text too long` error exactly when the caption needs strictly more than
`max_text_lines` lines under both strategies (word-preserving wrap and the
hard-break fallback); in particular, with `max_len = 21` and `max_lines = 4`
(the `avery-5160` template), the caption of five 21-character words separated
by single spaces fails construction. -/
theorem c1_text_too_long :
    (∀ (url text : Str) (meta : LabelMeta) (today : Str),
      LabelData.init false url text meta today =
          Except.error (("Text too long: ").toList ++ text) ↔
        ((break_word meta.text_line_max_len (text_lines text)).length >
            meta.max_text_lines ∧
          (break_any meta.text_line_max_len (text_lines text)).length >
            meta.max_text_lines)) ∧
    LabelData.init false (("u").toList) caption5x21 avery5160 (("24-06-01").toList) =
      Except.error (("Text too long: ").toList ++ caption5x21) := by
  constructor
  · intro url text meta today
    by_cases hw : (break_word meta.text_line_max_len (text_lines text)).length >
        meta.max_text_lines
    · by_cases ha : (break_any meta.text_line_max_len (text_lines text)).length >
          meta.max_text_lines
      · simp [LabelData.init, broken_lines, hw, ha]
      · simp [LabelData.init, broken_lines, hw, ha]
    · simp [LabelData.init, broken_lines, hw]
  · decide

/-- Claim C3: in default mode, when word-preserving wrap exceeds
`max_text_lines`, the lines used thereafter equal the hard-break strategy
applied to the original paragraph fragments (`text_lines text`), not to the
wrapped output — equivalently, construction coincides with forced
hard-break mode. -/
theorem c3_fallback_from_fragments (url text : Str) (meta : LabelMeta) (today : Str)
    (h : (break_word meta.text_line_max_len (text_lines text)).length >
      meta.max_text_lines) :
    broken_lines false meta text =
      break_any meta.text_line_max_len (text_lines text) ∧
    LabelData.init false url text meta today =
      LabelData.init true url text meta today := by
  have h1 : broken_lines false meta text =
      break_any meta.text_line_max_len (text_lines text) := by
    simp [broken_lines, h]
  have h2 : broken_lines true meta text =
      break_any meta.text_line_max_len (text_lines text) := by
    simp [broken_lines]
  refine ⟨h1, ?_⟩
  simp [LabelData.init, h1, h2]

/-- Witness for C3: five 11-character words word-wrap to 5 > 4 lines on the
`avery-5160` template, and the fallback equals forced hard-break mode. -/
theorem c3_fallback_witness :
    broken_lines false avery5160 caption5x11 =
      break_any avery5160.text_line_max_len (text_lines caption5x11) ∧
    LabelData.init false (("u").toList) caption5x11 avery5160 (("24-06-01").toList) =
      LabelData.init true (("u").toList) caption5x11 avery5160 (("24-06-01").toList) :=
  c3_fallback_from_fragments (("u").toList) caption5x11 avery5160
    (("24-06-01").toList) (by decide)

/-- Claim C4 (counterexample): with the `avery-5160` template (timestamp line
enabled, `max_text_lines = 4`), a caption of four 21-character words
constructs successfully with five `TextLine`s — the timestamp line is
appended after the cap check, so the claimed invariant
`lines ≤ max_text_lines` fails for timestamp-enabled templates. -/
theorem c4_counterexample :
    (LabelData.init false (("u").toList) caption4x21 avery5160
        (("24-06-01").toList)).toOption.map (fun d => d.lines.length) = some 5 ∧
    avery5160.max_text_lines < 5 := by
  decide

/-- Claim C8 (counterexample): an empty paragraph fragment — here produced by
a trailing line-break token in the caption `"a#%"` — is kept by the
hard-break strategy as an empty-string line, not dropped. -/
theorem c8_counterexample :
    text_lines (['a', '#', '%']) = [['a'], []] ∧
    break_any 21 (text_lines (['a', '#', '%'])) = [['a'], []] ∧
    [] ∈ break_any 21 (text_lines (['a', '#', '%'])) := by
  decide

/-- Every line of `broken_lines` fits in `text_line_max_len`. -/
theorem broken_lines_le (b : Bool) (meta : LabelMeta) (text : Str)
    (h0 : 0 < meta.text_line_max_len) :
    ∀ line ∈ broken_lines b meta text, line.length ≤ meta.text_line_max_len := by
  intro line hl
  unfold broken_lines at hl
  rcases b with _ | _
  · simp only [Bool.false_eq_true, if_false] at hl
    split at hl
    · exact break_any_line_le _ _ line hl
    · exact break_word_line_le h0 _ line hl
  · simp only [if_true] at hl
    exact break_any_line_le _ _ line hl

/-- Claim C4 (amended): a successfully constructed record carries exactly the
caption lines produced by the chosen strategy followed by the timestamp line
when the template enables it; the caption lines number at most
`max_text_lines` and each fits in `text_line_max_len`, but the timestamp
line is exempt from the count check (it is appended afterwards), so the
total may reach `max_text_lines + 1` on timestamp-enabled templates. -/
theorem c4_amended (b : Bool) (url text : Str) (meta : LabelMeta) (today : Str)
    (d : LabelData) (hml : 0 < meta.text_line_max_len)
    (h : LabelData.init b url text meta today = Except.ok d) :
    d.lines.map (fun l => l.text) =
      broken_lines b meta text ++
        (if meta.include_timestamp then [today] else []) ∧
    (broken_lines b meta text).length ≤ meta.max_text_lines ∧
    d.lines.length ≤ meta.max_text_lines +
      (if meta.include_timestamp then 1 else 0) ∧
    ∀ line ∈ broken_lines b meta text, line.length ≤ meta.text_line_max_len := by
  unfold LabelData.init at h
  split at h
  · exact absurd h (by simp)
  · next hcount =>
    have hd := (Except.ok.injEq _ _).mp h
    subst hd
    have hle : (broken_lines b meta text).length ≤ meta.max_text_lines := by
      omega
    refine ⟨?_, hle, ?_, broken_lines_le b meta text hml⟩
    · rcases meta.include_timestamp with _ | _ <;>
        simp [List.map_map, Function.comp_def]
    · rcases hts : meta.include_timestamp with _ | _ <;>
        simp [hts, List.length_append] <;> omega

/-- Witness for C4 (amended): the caption `"hi"` on the `avery-5160`
template (timestamp enabled) constructs with caption line `"hi"` plus the
timestamp line. -/
theorem c4_amended_witness :
    (⟨("u").toList,
      [⟨("hi").toList, ("Roboto").toList, 9⟩,
       ⟨("24-06-01").toList, ("Roboto").toList, 9 - 3⟩],
      avery5160⟩ : LabelData).lines.map (fun l => l.text) =
      broken_lines false avery5160 (("hi").toList) ++
        (if avery5160.include_timestamp then [("24-06-01").toList] else []) ∧
    (broken_lines false avery5160 (("hi").toList)).length ≤
      avery5160.max_text_lines ∧
    (⟨("u").toList,
      [⟨("hi").toList, ("Roboto").toList, 9⟩,
       ⟨("24-06-01").toList, ("Roboto").toList, 9 - 3⟩],
      avery5160⟩ : LabelData).lines.length ≤ avery5160.max_text_lines +
      (if avery5160.include_timestamp then 1 else 0) ∧
    ∀ line ∈ broken_lines false avery5160 (("hi").toList),
      line.length ≤ avery5160.text_line_max_len :=
  c4_amended false (("u").toList) (("hi").toList) avery5160 (("24-06-01").toList)
    _ (by decide) rfl

/-- Claim C6 (amended): for a caption without the line-break token, whose
whitespace characters are all plain spaces, whose right-trimmed form is
nonempty, and whose length is at most `max_len`, the word-preserving wrap
returns exactly one line equal to the right-trimmed caption. -/
theorem c6_amended (text : Str) (max_len : Nat)
    (htok : containsLineBreak text = false)
    (hchars : ∀ c ∈ text, pyIsSpace c = true → c = ' ')
    (hne : rstrip text ≠ [])
    (hlen : text.length ≤ max_len) :
    break_word max_len (text_lines text) = [rstrip text] := by
  have hfrag : text_lines text = [rstrip text] := by
    unfold text_lines
    rw [htok]
    simp
  rw [hfrag]
  have hbw : break_word max_len [rstrip text] = wrap (rstrip text) max_len := by
    simp [break_word]
  rw [hbw]
  have hsubchars : ∀ c ∈ rstrip text, pyIsSpace c = true → c = ' ' := by
    intro c hc
    exact hchars c (( rstrip_prefix text).sublist.subset hc)
  have hmunge : munge (rstrip text) = rstrip text := munge_id _ hsubchars
  obtain ⟨hflat, hchne⟩ := splitChunks_spec (rstrip text)
  have hcne : splitChunks (rstrip text) ≠ [] := by
    intro hc
    rw [hc] at hflat
    exact hne hflat.symm
  have hsum : sumLen (splitChunks (rstrip text)) ≤ max_len := by
    rw [← flatten_length_sumLen, hflat]
    exact le_trans (rstrip_length_le text) hlen
  have hlast : ∀ last, (splitChunks (rstrip text)).getLast? = some last →
      last.all pyIsSpace = false := by
    intro last hgl
    have hfl := flatten_getLast? (splitChunks (rstrip text)) hchne
    rw [hflat, hgl] at hfl
    have hlast2 : last.getLast? = some ((rstrip text).getLast hne) := by
      rw [List.getLast?_eq_getLast _ hne] at hfl
      simpa using hfl.symm
    have hpy := rstrip_getLast hne
    have hmem : (rstrip text).getLast hne ∈ last := by
      obtain ⟨hl2, heq⟩ := @List.mem_getLast?_eq_getLast _ last
        ((rstrip text).getLast hne) (by rw [hlast2]; rfl)
      rw [heq]
      exact List.getLast_mem hl2
    rcases hall : last.all pyIsSpace with _ | _
    · rfl
    · have := (List.all_eq_true.mp hall) _ hmem
      rw [hpy] at this
      cases this
  have hstep := wrapStep_single max_len (splitChunks (rstrip text)) hsum hlast hcne
  unfold wrap
  rw [hmunge]
  rcases hch : splitChunks (rstrip text) with _ | ⟨c0, cs0⟩
  · exact absurd hch hcne
  · rw [← hch]
    have hfuelpos : sumLen (splitChunks (rstrip text)) +
        (splitChunks (rstrip text)).length + 1 =
        (sumLen (splitChunks (rstrip text)) + (splitChunks (rstrip text)).length) + 1 := rfl
    rw [hfuelpos, hch, wrapLoopF, ← hch, hstep, hflat]
    rcases sumLen (splitChunks (rstrip text)) + (splitChunks (rstrip text)).length with _ | n
    · rfl
    · rfl

/-- Claim C6 (counterexample): the all-space caption `" "` has length 1 ≤ 21
but word-preserving wrap returns zero lines, not one line equal to the
trimmed input. -/
theorem c6_counterexample :
    break_word 21 (text_lines ([' '])) = [] ∧
    ([] : List Str) ≠ [rstrip ([' '])] := by
  decide

/-- Witness for C6 (amended) at the caption `"hi"` with `max_len = 21`. -/
theorem c6_amended_witness :
    break_word 21 (text_lines (['h', 'i'])) = [rstrip (['h', 'i'])] :=
  c6_amended (['h', 'i']) 21 (by decide) (by decide) (by decide) (by decide)

/-- Claim C8 (amended): an empty paragraph fragment contributes zero lines
under the word-preserving strategy (`textwrap.wrap('')` is empty), but under
the hard-break strategy it contributes one empty-string line (its length 0
is within any `max_len`, so it is passed through). -/
theorem c8_amended (max_len : Nat) (l r : List Str) :
    break_word max_len (l ++ [] :: r) = break_word max_len (l ++ r) ∧
    break_any max_len (l ++ [] :: r) =
      break_any max_len l ++ [] :: break_any max_len r := by
  constructor
  · simp [break_word]
  · simp [break_any]

/-! ### Claims C9 and C10: URL normalization -/

theorem splitTildeAux_no_tilde :
    ∀ (s cur : Str), '~' ∉ s → splitTildeAux cur s = [cur.reverse ++ s] := by
  intro s
  induction s with
  | nil => intro cur _; simp [splitTildeAux]
  | cons c cs ih =>
    intro cur hmem
    have hc : c ≠ '~' := fun hcc => hmem (hcc ▸ List.mem_cons_self c cs)
    have hcs : '~' ∉ cs := fun hx => hmem (List.mem_cons_of_mem c hx)
    rw [splitTildeAux.eq_def]
    split
    · next heq => cases heq
    · next heq =>
      injection heq with h1 h2
      exact absurd h1 hc
    · next c2 cs2 _ heq =>
      injection heq with h1 h2
      subst h1
      subst h2
      rw [ih (c :: cur) hcs]
      simp

theorem splitTildeAux_pair :
    ∀ (url cur caption : Str), '~' ∉ url → '~' ∉ caption →
      splitTildeAux cur (url ++ '~' :: caption) =
        (cur.reverse ++ url) :: [caption] := by
  intro url
  induction url with
  | nil =>
    intro cur caption _ hcap
    simp only [List.nil_append, List.append_nil]
    rw [splitTildeAux]
    rw [splitTildeAux_no_tilde caption [] hcap]
    simp
  | cons c cs ih =>
    intro cur caption hurl hcap
    have hc : c ≠ '~' := fun hcc => hurl (hcc ▸ List.mem_cons_self c cs)
    have hcs : '~' ∉ cs := fun hx => hurl (List.mem_cons_of_mem c hx)
    show splitTildeAux cur (c :: (cs ++ '~' :: caption)) = _
    rw [splitTildeAux.eq_def]
    split
    · next heq => cases heq
    · next heq =>
      injection heq with h1 h2
      exact absurd h1 hc
    · next c2 cs2 _ heq =>
      injection heq with h1 h2
      subst h1
      subst h2
      rw [ih (c :: cur) caption hcs hcap]
      simp

/-- With no `'~'` in either field, the token splits into exactly the pair. -/
theorem splitTilde_pair (url caption : Str) (hu : '~' ∉ url) (hc : '~' ∉ caption) :
    splitTilde (url ++ '~' :: caption) = [url, caption] := by
  unfold splitTilde
  rw [splitTildeAux_pair url [] caption hu hc]
  simp

/-- Claim C9: URL normalization — `example.com/path` gains the default
scheme, `https://example.com` is stored unchanged, and `not a url` is
rejected with the invalid-url error. -/
theorem c9_url_normalization :
    (process_datum false avery5160 (("24-06-01").toList)
        (("example.com/path~hi").toList)).map (fun d => d.url) =
      Except.ok (("https://example.com/path").toList) ∧
    (process_datum false avery5160 (("24-06-01").toList)
        (("https://example.com~hi").toList)).map (fun d => d.url) =
      Except.ok (("https://example.com").toList) ∧
    process_datum false avery5160 (("24-06-01").toList)
        (("not a url~hi").toList) =
      Except.error (("Invalid url: not a url").toList) := by
  refine ⟨?_, ?_, ?_⟩ <;> decide

/-- Claim C10: whenever the pattern's scheme group participates in the match
(`rx_url_match url = some true` — in particular for an accepted
`http://…` URL), the parser accepts the token and stores the URL unchanged;
the default scheme `https://` is prepended exactly when the scheme group did
not participate (`some false`), and an existing scheme is never rewritten. -/
theorem c10_scheme_preserved (b : Bool) (meta : LabelMeta) (today url caption : Str)
    (hu : '~' ∉ url) (hc : '~' ∉ caption) :
    (∀ g : Bool, rx_url_match url = some g →
      process_datum b meta today (url ++ '~' :: caption) =
        LabelData.init b
          (if g then url else ("https://").toList ++ url) caption meta today) ∧
    (rx_url_match url = some true →
      process_datum b meta today (url ++ '~' :: caption) =
        LabelData.init b url caption meta today) := by
  have hsplit := splitTilde_pair url caption hu hc
  have hmain : ∀ g : Bool, rx_url_match url = some g →
      process_datum b meta today (url ++ '~' :: caption) =
        LabelData.init b
          (if g then url else ("https://").toList ++ url) caption meta today := by
    intro g hg
    unfold process_datum
    rw [hsplit]
    simp [hg]
  refine ⟨hmain, fun hg => ?_⟩
  exact hmain true hg

/-- Witness for C10 at the concrete insecure-scheme URL `http://ab.cd`. -/
theorem c10_scheme_preserved_witness :
    (∀ g : Bool, rx_url_match (("http://ab.cd").toList) = some g →
      process_datum false avery5160 (("24-06-01").toList)
          ((("http://ab.cd").toList) ++ '~' :: (("hi").toList)) =
        LabelData.init false
          (if g then ("http://ab.cd").toList
          else ("https://").toList ++ ("http://ab.cd").toList)
          (("hi").toList) avery5160 (("24-06-01").toList)) ∧
    (rx_url_match (("http://ab.cd").toList) = some true →
      process_datum false avery5160 (("24-06-01").toList)
          ((("http://ab.cd").toList) ++ '~' :: (("hi").toList)) =
        LabelData.init false (("http://ab.cd").toList) (("hi").toList)
          avery5160 (("24-06-01").toList)) :=
  c10_scheme_preserved false avery5160 (("24-06-01").toList)
    (("http://ab.cd").toList) (("hi").toList) (by decide) (by decide)

@[simp] theorem wordsOf_nil : wordsOf [] = [] := rfl

theorem wordsOfAux_ws_cons {c : Char} (hc : twIsWs c = true) (cs : Str) :
    wordsOfAux [] (c :: cs) = wordsOfAux [] cs := by
  rw [wordsOfAux, if_pos hc]
  rfl

/-- Splitting at a whitespace character distributes `wordsOf` over append. -/
theorem wordsOfAux_append_sep {c : Char} (hc : twIsWs c = true) (b : Str) :
    ∀ (a cur : Str),
      wordsOfAux cur (a ++ c :: b) = wordsOfAux cur a ++ wordsOfAux [] b := by
  intro a
  induction a with
  | nil =>
    intro cur
    rcases cur with _ | ⟨x, xs⟩
    · rw [List.nil_append, wordsOfAux_ws_cons hc]
      rfl
    · have hL : wordsOfAux (x :: xs) (c :: b) =
          (x :: xs).reverse :: wordsOfAux [] b := by
        rw [wordsOfAux, if_pos hc, if_neg (by simp)]
      have hR : wordsOfAux (x :: xs) ([] : Str) = [(x :: xs).reverse] := by
        rw [wordsOfAux, if_neg (by simp)]
      rw [List.nil_append, hL, hR]
      rfl
  | cons y a ih =>
    intro cur
    rw [List.cons_append]
    by_cases hy : twIsWs y
    · rcases cur with _ | ⟨x, xs⟩
      · rw [wordsOfAux_ws_cons hy, wordsOfAux_ws_cons hy]
        exact ih []
      · have hL : wordsOfAux (x :: xs) (y :: (a ++ c :: b)) =
            (x :: xs).reverse :: wordsOfAux [] (a ++ c :: b) := by
          rw [wordsOfAux, if_pos hy, if_neg (by simp)]
        have hR : wordsOfAux (x :: xs) (y :: a) =
            (x :: xs).reverse :: wordsOfAux [] a := by
          rw [wordsOfAux, if_pos hy, if_neg (by simp)]
        rw [hL, hR, ih []]
        rfl
    · have hL : wordsOfAux cur (y :: (a ++ c :: b)) =
          wordsOfAux (y :: cur) (a ++ c :: b) := by
        rw [wordsOfAux, if_neg hy]
      have hR : wordsOfAux cur (y :: a) = wordsOfAux (y :: cur) a := by
        rw [wordsOfAux, if_neg hy]
      rw [hL, hR, ih (y :: cur)]

theorem wordsOf_append_sep {c : Char} (hc : twIsWs c = true) (a b : Str) :
    wordsOf (a ++ c :: b) = wordsOf a ++ wordsOf b :=
  wordsOfAux_append_sep hc b a []

/-- A string of whitespace contributes no words, even as a prefix. -/
theorem wordsOfAux_ws_prefix :
    ∀ (w : Str), (∀ c ∈ w, twIsWs c = true) →
      ∀ X : Str, wordsOfAux [] (w ++ X) = wordsOfAux [] X := by
  intro w
  induction w with
  | nil => intro _ X; rfl
  | cons c w ih =>
    intro hw X
    rw [List.cons_append, wordsOfAux_ws_cons (hw c (List.mem_cons_self _ _))]
    exact ih (fun x hx => hw x (List.mem_cons_of_mem c hx)) X

theorem wordsOf_all_ws (w : Str) (hw : ∀ c ∈ w, twIsWs c = true) :
    wordsOf w = [] := by
  have := wordsOfAux_ws_prefix w hw []
  simpa [wordsOf] using this

/-- Dropping an all-whitespace suffix does not change the words. -/
theorem wordsOf_append_all_ws (a w : Str) (hw : ∀ c ∈ w, twIsWs c = true) :
    wordsOf (a ++ w) = wordsOf a := by
  rcases w with _ | ⟨c, w⟩
  · simp
  · rw [wordsOf_append_sep (hw c (List.mem_cons_self _ _)) a w,
      wordsOf_all_ws w (fun x hx => hw x (List.mem_cons_of_mem c hx))]
    simp

/-- A nonempty all-non-whitespace string is exactly one word. -/
theorem wordsOfAux_word :
    ∀ (w : Str), w ≠ [] → (∀ c ∈ w, twIsWs c = false) →
      ∀ cur : Str, wordsOfAux cur w = [cur.reverse ++ w] := by
  intro w
  induction w with
  | nil => intro h; exact absurd rfl h
  | cons x w ih =>
    intro _ hw cur
    rw [wordsOfAux, if_neg (by simp [hw x (List.mem_cons_self _ _)])]
    rcases w with _ | ⟨y, w2⟩
    · simp [wordsOfAux]
    · rw [ih (by simp) (fun c hc => hw c (List.mem_cons_of_mem x hc)) (x :: cur)]
      simp

theorem wordsOf_word (w : Str) (hne : w ≠ []) (hw : ∀ c ∈ w, twIsWs c = false) :
    wordsOf w = [w] := by
  have := wordsOfAux_word w hne hw []
  simpa [wordsOf] using this

/-- Accumulating a nonempty word guarantees at least one word. -/
theorem wordsOfAux_ne_nil_of_cur :
    ∀ (s cur : Str), cur ≠ [] → wordsOfAux cur s ≠ [] := by
  intro s
  induction s with
  | nil =>
    intro cur hcur
    rw [wordsOfAux]
    rw [if_neg (by simpa using hcur)]
    simp
  | cons c cs ih =>
    intro cur hcur
    rw [wordsOfAux]
    by_cases hc : twIsWs c
    · rw [if_pos hc, if_neg (by simpa using hcur)]
      simp
    · rw [if_neg hc]
      exact ih (c :: cur) (by simp)

/-- A string containing a non-whitespace character has at least one word. -/
theorem wordsOf_ne_nil :
    ∀ (s : Str) (c : Char), c ∈ s → twIsWs c = false → wordsOf s ≠ [] := by
  intro s
  induction s with
  | nil => intro c hc; cases hc
  | cons x s ih =>
    intro c hc hcw
    by_cases hx : twIsWs x
    · rcases List.mem_cons.mp hc with rfl | hc2
      · rw [hx] at hcw; cases hcw
      · rw [wordsOf, wordsOfAux_ws_cons hx]
        exact ih c hc2 hcw
    · rw [wordsOf, wordsOfAux, if_neg hx]
      exact wordsOfAux_ne_nil_of_cur s [x] (by simp)

/-! ### Words of wrapped output -/

theorem intercalate_space_cons₂ (a b : Str) (t : List Str) :
    List.intercalate ([' ']) (a :: b :: t) =
      a ++ ' ' :: List.intercalate ([' ']) (b :: t) := by
  rw [List.intercalate, List.intercalate, List.intersperse_cons_cons,
    List.flatten_cons, List.flatten_cons]
  simp

/-- Words of lines joined with single spaces = concatenated words of lines. -/
theorem wordsOf_intercalate :
    ∀ lines : List Str,
      wordsOf (List.intercalate ([' ']) lines) =
        (lines.map wordsOf).flatten := by
  intro lines
  induction lines with
  | nil => simp [List.intercalate]
  | cons l rest ih =>
    rcases rest with _ | ⟨m, t⟩
    · simp [List.intercalate]
    · rw [intercalate_space_cons₂, wordsOf_append_sep (by decide) l, ih]
      simp

theorem isSpaceChunk_iff {width : Nat} {ch : Str} (h : GoodChunk width ch) :
    isSpaceChunk ch = true ↔ (∀ c ∈ ch, c = ' ') := by
  constructor
  · intro hs c hc
    exact beq_iff_eq.mp (List.all_eq_true.mp hs c hc)
  · intro hs
    exact List.all_eq_true.mpr (fun c hc => beq_iff_eq.mpr (hs c hc))

theorem good_word_of_not_space {width : Nat} {ch : Str} (h : GoodChunk width ch)
    (hs : isSpaceChunk ch = false) :
    (∀ c ∈ ch, pyIsSpace c = false) ∧ ch.length ≤ width := by
  rcases h.2 with hsp | hw
  · rw [(isSpaceChunk_iff h).mpr hsp] at hs
    cases hs
  · exact hw

/-- For a good chunk, the Python `strip() == ''` test (all `pyIsSpace`)
agrees with being a space chunk. -/
theorem all_pyIsSpace_iff_isSpaceChunk {width : Nat} {ch : Str}
    (h : GoodChunk width ch) : ch.all pyIsSpace = isSpaceChunk ch := by
  rcases hs : isSpaceChunk ch with _ | _
  · obtain ⟨hpy, _⟩ := good_word_of_not_space h hs
    rcases hne : ch with _ | ⟨x, xs⟩
    · rw [hne] at h; exact absurd rfl h.1
    · rw [← hne]
      rcases hall : ch.all pyIsSpace with _ | _
      · rfl
      · have := List.all_eq_true.mp hall x (by rw [hne]; exact List.mem_cons_self _ _)
        rw [hpy x (by rw [hne]; exact List.mem_cons_self _ _)] at this
        cases this
  · have hsp := (isSpaceChunk_iff h).mp hs
    apply List.all_eq_true.mpr
    intro c hc
    rw [hsp c hc]
    decide

/-- The words of a flattened good chunk list with no two adjacent words are
exactly its word chunks. -/
theorem wordsOf_flatten_chunks {width : Nat} :
    ∀ L : List Str, (∀ ch ∈ L, GoodChunk width ch) →
      L.Chain' (fun a b => isSpaceChunk a = true ∨ isSpaceChunk b = true) →
      wordsOf L.flatten = L.filter (fun ch => !isSpaceChunk ch) := by
  intro L
  induction L with
  | nil => intro _ _; simp
  | cons ch L' ih =>
    intro hgood hchain
    have hch := hgood ch (List.mem_cons_self _ _)
    have hgood' : ∀ x ∈ L', GoodChunk width x :=
      fun x hx => hgood x (List.mem_cons_of_mem ch hx)
    have hchain' := hchain.tail
    rcases hs : isSpaceChunk ch with _ | _
    · -- word chunk
      obtain ⟨hpy, _⟩ := good_word_of_not_space hch hs
      have hnw : ∀ c ∈ ch, twIsWs c = false := by
        intro c hc
        rcases htw : twIsWs c with _ | _
        · rfl
        · exact absurd (twIsWs_pyIsSpace htw) (by simp [hpy c hc])
      rcases L' with _ | ⟨d, L''⟩
      · rw [List.flatten_cons, List.flatten_nil, List.append_nil,
          wordsOf_word ch hch.1 hnw]
        simp [hs]
      · have hd : isSpaceChunk d = true := by
          rcases List.chain'_cons.mp hchain with ⟨hrel, _⟩
          rcases hrel with h1 | h2
          · rw [h1] at hs; cases hs
          · exact h2
        have hdg := hgood' d (List.mem_cons_self _ _)
        have hdsp := (isSpaceChunk_iff hdg).mp hd
        obtain ⟨d0, d', rfl⟩ : ∃ d0 d', d = d0 :: d' := by
          rcases d with _ | ⟨d0, d'⟩
          · exact absurd rfl hdg.1
          · exact ⟨d0, d', rfl⟩
        have hd0 : d0 = ' ' := hdsp d0 (List.mem_cons_self _ _)
        subst hd0
        have hd'ws : ∀ c ∈ d', twIsWs c = true := by
          intro c hc
          rw [hdsp c (List.mem_cons_of_mem _ hc)]
          decide
        have hXdef : ((ch :: (' ' :: d') :: L'').flatten : Str) =
            ch ++ ' ' :: (d' ++ L''.flatten) := by
          simp
        rw [hXdef, wordsOf_append_sep (by decide) ch (d' ++ L''.flatten),
          wordsOf_word ch hch.1 hnw]
        have hX : wordsOf (d' ++ L''.flatten) = wordsOf L''.flatten := by
          exact wordsOfAux_ws_prefix d' hd'ws L''.flatten
        have hIH := ih hgood' hchain'
        have hIH2 : wordsOf L''.flatten =
            L''.filter (fun ch => !isSpaceChunk ch) := by
          have hflat2 : (((' ' :: d') :: L'').flatten : Str) =
              (' ' :: d') ++ L''.flatten := by simp
          rw [hflat2] at hIH
          have hws2 : ∀ c ∈ (' ' :: d'), twIsWs c = true := by
            intro c hc
            rw [hdsp c hc]
            decide
          rw [show wordsOf ((' ' :: d') ++ L''.flatten) = wordsOf L''.flatten from
            wordsOfAux_ws_prefix (' ' :: d') hws2 L''.flatten] at hIH
          simpa [List.filter_cons, hd] using hIH
        rw [hX, hIH2]
        simp [List.filter_cons, hs, hd]
    · -- space chunk
      have hsp := (isSpaceChunk_iff hch).mp hs
      rw [List.flatten_cons]
      have hws : ∀ c ∈ ch, twIsWs c = true := by
        intro c hc
        rw [hsp c hc]
        decide
      have := wordsOfAux_ws_prefix ch hws L'.flatten
      rw [wordsOf] at *
      rw [this, ih hgood' hchain']
      simp [hs]

/-! ### One step of the wrap loop preserves the invariant and the words -/

theorem mu_pos {L : List Str} (h : L ≠ []) : 0 < sumLen L + L.length := by
  rcases L with _ | ⟨a, l⟩
  · exact absurd rfl h
  · simp only [List.length_cons]
    omega

theorem fillLine_head_no_fit {width curLen : Nat} {ch : Str} {tl : List Str}
    (h : (fillLine width curLen (ch :: tl)).1 = []) :
    width < curLen + ch.length := by
  rw [fillLine] at h
  by_cases hfit : curLen + ch.length ≤ width
  · rw [if_pos hfit] at h
    cases h
  · omega

theorem hlwEnd_pos {width curLen : Nat} (chunk : Str)
    (h : 0 < space_left width curLen) : 0 < hlwEnd width curLen chunk := by
  unfold hlwEnd
  split
  · split
    · split
      · omega
      · exact h
    · exact h
  · exact h

theorem dropLeadingWs_cases (hasLines : Bool) (L : List Str) :
    dropLeadingWs hasLines L = L ∨
      ∃ ch, L = ch :: dropLeadingWs hasLines L ∧ ch.all pyIsSpace = true := by
  rcases hasLines with _ | _
  · left
    cases L <;> rfl
  · rcases L with _ | ⟨ch, rest⟩
    · left; rfl
    · by_cases hall : ch.all pyIsSpace = true
      · right
        refine ⟨ch, ?_, hall⟩
        rw [dropLeadingWs, if_pos hall]
      · left
        rw [dropLeadingWs, if_neg hall]

theorem dropTrailingWs_cases (cur : List Str) :
    dropTrailingWs cur = cur ∨
      ∃ last, cur = cur.dropLast ++ [last] ∧ last.all pyIsSpace = true ∧
        dropTrailingWs cur = cur.dropLast := by
  unfold dropTrailingWs
  rcases hgl : cur.getLast? with _ | last
  · left; rfl
  · by_cases hall : last.all pyIsSpace = true
    · right
      refine ⟨last, ?_, hall, ?_⟩
      · have hne : cur ≠ [] := by
          intro hc
          rw [hc] at hgl
          cases hgl
        have := List.dropLast_append_getLast hne
        rw [List.getLast?_eq_getLast _ hne] at hgl
        have hlast : cur.getLast hne = last := by
          simpa using hgl
        rw [← hlast]
        exact this.symm
      · simp [hall]
    · left
      simp [hall]

theorem wrapStep_spec (width : Nat) (h0 : 0 < width) (hasLines : Bool)
    (L : List Str) (hinv : ChunksInv width L) (hL : L ≠ []) :
    ChunksInv width (wrapStep width hasLines L).2 ∧
    sumLen (wrapStep width hasLines L).2 + (wrapStep width hasLines L).2.length <
      sumLen L + L.length ∧
    ((wrapStep width hasLines L).1.elim [] wordsOf) ++
      (wrapStep width hasLines L).2.filter (fun ch => !isSpaceChunk ch) =
      L.filter (fun ch => !isSpaceChunk ch) := by
  obtain ⟨hgood, hchain⟩ := hinv
  -- the dropped leading whitespace chunk
  have hL1 : ChunksInv width (dropLeadingWs hasLines L) ∧
      (dropLeadingWs hasLines L).filter (fun ch => !isSpaceChunk ch) =
        L.filter (fun ch => !isSpaceChunk ch) ∧
      sumLen (dropLeadingWs hasLines L) + (dropLeadingWs hasLines L).length ≤
        sumLen L + L.length := by
    rcases dropLeadingWs_cases hasLines L with heq | ⟨ch, heq, hall⟩
    · rw [heq]
      exact ⟨⟨hgood, hchain⟩, rfl, le_refl _⟩
    · have hchg : GoodChunk width ch := by
        rw [heq] at hgood
        exact hgood ch (List.mem_cons_self _ _)
      have hsp : isSpaceChunk ch = true := by
        rw [← all_pyIsSpace_iff_isSpaceChunk hchg]
        exact hall
      constructor
      · constructor
        · intro x hx
          rw [heq] at hgood
          exact hgood x (List.mem_cons_of_mem ch hx)
        · have := hchain
          rw [heq] at this
          exact this.tail
      constructor
      · conv_rhs => rw [heq]
        rw [List.filter_cons]
        simp [hsp]
      · conv_rhs => rw [heq]
        simp only [sumLen_cons, List.length_cons]
        omega
  obtain ⟨⟨hgood1, hchain1⟩, hfilter1, hmu1⟩ := hL1
  set L1 := dropLeadingWs hasLines L with hL1def
  -- the filled line
  have hsplit : (fillLine width 0 L1).1 ++ (fillLine width 0 L1).2 = L1 :=
    fillLine_append width 0 L1
  set cur := (fillLine width 0 L1).1 with hcurdef
  set rest := (fillLine width 0 L1).2 with hrestdef
  have hgoodcur : ∀ x ∈ cur, GoodChunk width x := by
    intro x hx
    exact hgood1 x (by rw [← hsplit]; exact List.mem_append_left _ hx)
  have hgoodrest : ∀ x ∈ rest, GoodChunk width x := by
    intro x hx
    exact hgood1 x (by rw [← hsplit]; exact List.mem_append_right _ hx)
  have hchaincur : cur.Chain' (fun a b => isSpaceChunk a = true ∨ isSpaceChunk b = true) := by
    have := hchain1
    rw [← hsplit] at this
    exact this.left_of_append
  have hchainrest : rest.Chain' (fun a b => isSpaceChunk a = true ∨ isSpaceChunk b = true) := by
    have := hchain1
    rw [← hsplit] at this
    exact this.right_of_append
  have hfiltersplit : L1.filter (fun ch => !isSpaceChunk ch) =
      cur.filter (fun ch => !isSpaceChunk ch) ++ rest.filter (fun ch => !isSpaceChunk ch) := by
    rw [← hsplit, List.filter_append]
  have hmusplit : sumLen L1 + L1.length =
      (sumLen cur + cur.length) + (sumLen rest + rest.length) := by
    rw [← hsplit, sumLen_append, List.length_append]
    omega
  have hsumcur : sumLen cur ≤ width := by
    have := fillLine_sum width 0 L1 (Nat.zero_le _)
    simpa using this
  -- the words of the current line, after the trailing-whitespace drop
  have hline : ∀ cur2 : List Str, (∀ x ∈ cur2, GoodChunk width x) →
      cur2.Chain' (fun a b => isSpaceChunk a = true ∨ isSpaceChunk b = true) →
      ((if (dropTrailingWs cur2).isEmpty then (none : Option Str)
        else some (dropTrailingWs cur2).flatten).elim [] wordsOf) =
        cur2.filter (fun ch => !isSpaceChunk ch) := by
    intro cur2 hg hc
    have hfloor : (dropTrailingWs cur2).filter (fun ch => !isSpaceChunk ch) =
        cur2.filter (fun ch => !isSpaceChunk ch) ∧
        (∀ x ∈ dropTrailingWs cur2, GoodChunk width x) ∧
        (dropTrailingWs cur2).Chain' (fun a b => isSpaceChunk a = true ∨ isSpaceChunk b = true) := by
      rcases dropTrailingWs_cases cur2 with heq | ⟨last, heq, hall, heq2⟩
      · rw [heq]
        exact ⟨rfl, hg, hc⟩
      · have hlg : GoodChunk width last := by
          exact hg last (by rw [heq]; exact List.mem_append_right _ (List.mem_singleton.mpr rfl))
        have hsp : isSpaceChunk last = true := by
          rw [← all_pyIsSpace_iff_isSpaceChunk hlg]
          exact hall
        refine ⟨?_, ?_, ?_⟩
        · rw [heq2]
          conv_rhs => rw [heq]
          rw [List.filter_append]
          simp [hsp]
        · intro x hx
          rw [heq2] at hx
          exact hg x ((List.dropLast_sublist cur2).subset hx)
        · rw [heq2]
          exact hc.init
    obtain ⟨hf, hg2, hc2⟩ := hfloor
    by_cases hemp : (dropTrailingWs cur2).isEmpty
    · rw [if_pos hemp]
      have : dropTrailingWs cur2 = [] := by
        simpa [List.isEmpty_iff] using hemp
      rw [this] at hf
      simp only [List.filter_nil] at hf
      simp [Option.elim, ← hf]
    · rw [if_neg hemp]
      simp only [Option.elim]
      rw [wordsOf_flatten_chunks (dropTrailingWs cur2) hg2 hc2, hf]
  -- case split on the long-word handling
  rcases hrest : rest with _ | ⟨ch, tl⟩
  · -- no remaining chunk: afterFill is the identity
    have hA : afterFill width cur [] = (cur, []) := afterFill_nil width cur
    have hw : wrapStep width hasLines L =
        (if (dropTrailingWs cur).isEmpty then none
          else some (dropTrailingWs cur).flatten, []) := by
      simp only [wrapStep, ← hL1def, ← hcurdef, ← hrestdef, hrest, hA]
    rw [hw]
    refine ⟨⟨(fun x hx => absurd hx (List.not_mem_nil x)), List.chain'_nil⟩, ?_, ?_⟩
    · simp only [sumLen_nil, List.length_nil]
      exact mu_pos hL
    · have := hline cur hgoodcur hchaincur
      rw [this]
      simp only [List.filter_nil, List.append_nil]
      rw [hfilter1] at hfiltersplit
      rw [hrest] at hfiltersplit
      simp only [List.filter_nil, List.append_nil] at hfiltersplit
      exact hfiltersplit.symm
  · by_cases hbig : width < ch.length
    · -- the long chunk is split; under the invariant it is all spaces
      have hchg : GoodChunk width ch := hgoodrest ch (by rw [hrest]; exact List.mem_cons_self _ _)
      have hchsp : ∀ c ∈ ch, c = ' ' := by
        rcases hchg.2 with hsp | ⟨_, hlen⟩
        · exact hsp
        · omega
      have hA : afterFill width cur (ch :: tl) =
          (cur ++ [(handle_long_word width (sumLen cur) ch).1],
            (handle_long_word width (sumLen cur) ch).2 :: tl) := by
        simp only [afterFill]
        rw [if_pos hbig]
      set piece := (handle_long_word width (sumLen cur) ch).1 with hpiecedef
      set rem := (handle_long_word width (sumLen cur) ch).2 with hremdef
      have hpiecesp : ∀ c ∈ piece, c = ' ' := by
        intro c hc
        rw [hpiecedef, handle_long_word] at hc
        exact hchsp c ((List.take_sublist _ _).subset hc)
      have hremsp : ∀ c ∈ rem, c = ' ' := by
        intro c hc
        rw [hremdef, handle_long_word] at hc
        exact hchsp c ((List.drop_sublist _ _).subset hc)
      have hEndle : hlwEnd width (sumLen cur) ch ≤ width := by
        have h1 := hlwEnd_le width (sumLen cur) ch
        have h2 : space_left width (sumLen cur) ≤ width := by
          unfold space_left
          rw [if_neg (by omega : ¬width < 1)]
          omega
        omega
      have hremne : rem ≠ [] := by
        rw [hremdef, handle_long_word]
        intro hc
        have := List.drop_eq_nil_iff.mp hc
        omega
      have hremlen : rem.length = ch.length - hlwEnd width (sumLen cur) ch := by
        rw [hremdef, handle_long_word]
        simp [List.length_drop]
      have hpiecelen : piece.length = hlwEnd width (sumLen cur) ch := by
        rw [hpiecedef, handle_long_word]
        simp [List.length_take]
        omega
      have hremsc : isSpaceChunk rem = true :=
        List.all_eq_true.mpr (fun c hc => beq_iff_eq.mpr (hremsp c hc))
      have hpiecepy : piece.all pyIsSpace = true :=
        List.all_eq_true.mpr (fun c hc => by rw [hpiecesp c hc]; decide)
      have hcur3 : dropTrailingWs (cur ++ [piece]) = cur := by
        unfold dropTrailingWs
        rw [List.getLast?_concat]
        simp only [hpiecepy, if_true]
        exact List.dropLast_concat
      have hw : wrapStep width hasLines L =
          (if cur.isEmpty then none else some cur.flatten, rem :: tl) := by
        simp only [wrapStep, ← hL1def, ← hcurdef, ← hrestdef, hrest, hA, ← hpiecedef,
          ← hremdef, hcur3]
      rw [hw]
      have htlgood : ∀ x ∈ tl, GoodChunk width x := by
        intro x hx
        exact hgoodrest x (by rw [hrest]; exact List.mem_cons_of_mem ch hx)
      have htlchain : tl.Chain' (fun a b => isSpaceChunk a = true ∨ isSpaceChunk b = true) := by
        have := hchainrest
        rw [hrest] at this
        exact this.tail
      refine ⟨⟨?_, ?_⟩, ?_, ?_⟩
      · intro x hx
        rcases List.mem_cons.mp hx with rfl | hx2
        · exact ⟨hremne, Or.inl hremsp⟩
        · exact htlgood x hx2
      · exact List.chain'_cons'.mpr ⟨fun y _ => Or.inl hremsc, htlchain⟩
      · -- measure strictly decreases
        have hmurest : sumLen rest + rest.length = ch.length + 1 + (sumLen tl + tl.length) := by
          rw [hrest]
          simp only [sumLen_cons, List.length_cons]
          omega
        have hEnd1 : cur = [] → 0 < hlwEnd width (sumLen cur) ch := by
          intro hcure
          apply hlwEnd_pos
          unfold space_left
          rw [if_neg (by omega : ¬width < 1)]
          rw [hcure]
          simpa using h0
        simp only [sumLen_cons, List.length_cons]
        by_cases hcure : cur = []
        · have := hEnd1 hcure
          rw [hcure] at hmusplit
          simp only [sumLen_nil, List.length_nil] at hmusplit
          omega
        · have hcurpos : 0 < cur.length := List.length_pos.mpr hcure
          have hremle : rem.length ≤ ch.length := by omega
          omega
      · -- words accounting
        have hlw := hline cur hgoodcur hchaincur
        have hcur3' : dropTrailingWs cur = cur ∨ True := Or.inr trivial
        -- the emitted line is exactly cur (no trailing-space drop needed here:
        -- the piece was already dropped); reuse hline on cur
        have hlo : ((if cur.isEmpty then (none : Option Str) else some cur.flatten).elim [] wordsOf) =
            cur.filter (fun ch => !isSpaceChunk ch) := by
          by_cases hemp : cur.isEmpty
          · rw [if_pos hemp]
            have : cur = [] := by simpa [List.isEmpty_iff] using hemp
            rw [this]
            simp
          · rw [if_neg hemp]
            simp only [Option.elim]
            exact wordsOf_flatten_chunks cur hgoodcur hchaincur
        rw [hlo]
        have hfilterrem : (rem :: tl).filter (fun ch => !isSpaceChunk ch) =
            tl.filter (fun ch => !isSpaceChunk ch) := by
          rw [List.filter_cons]
          simp [hremsc]
        have hfrest : rest.filter (fun ch => !isSpaceChunk ch) =
            tl.filter (fun ch => !isSpaceChunk ch) := by
          rw [hrest, List.filter_cons]
          have hchsc : isSpaceChunk ch = true :=
            List.all_eq_true.mpr (fun c hc => beq_iff_eq.mpr (hchsp c hc))
          simp [hchsc]
        have hfinal : L.filter (fun ch => !isSpaceChunk ch) =
            cur.filter (fun ch => !isSpaceChunk ch) ++
              tl.filter (fun ch => !isSpaceChunk ch) := by
          rw [← hfilter1, hfiltersplit, hfrest]
        rw [hfilterrem, hfinal]
    · -- the head chunk fits in a line by itself: no long-word handling
      have hA : afterFill width cur (ch :: tl) = (cur, ch :: tl) := by
        simp only [afterFill]
        rw [if_neg hbig]
      have hw : wrapStep width hasLines L =
          (if (dropTrailingWs cur).isEmpty then none
            else some (dropTrailingWs cur).flatten, ch :: tl) := by
        simp only [wrapStep, ← hL1def, ← hcurdef, ← hrestdef, hrest, hA]
      rw [hw]
      have hcurne : cur ≠ [] := by
        intro hcure
        have hL1eq : L1 = ch :: tl := by
          rw [← hsplit, hrest, hcure, List.nil_append]
        have hfe : (fillLine width 0 (ch :: tl)).1 = [] := by
          rw [← hL1eq, ← hcurdef]
          exact hcure
        have := fillLine_head_no_fit hfe
        omega
      refine ⟨⟨?_, ?_⟩, ?_, ?_⟩
      · intro x hx
        exact hgoodrest x (by rw [hrest]; exact hx)
      · have := hchainrest
        rw [hrest] at this
        exact this
      · show sumLen (ch :: tl) + (ch :: tl).length < sumLen L + L.length
        have hcurpos : 0 < sumLen cur + cur.length := by
          have := List.length_pos.mpr hcurne
          omega
        have hre : sumLen (ch :: tl) + (ch :: tl).length = sumLen rest + rest.length := by
          rw [hrest]
        omega
      · show ((if (dropTrailingWs cur).isEmpty then (none : Option Str)
            else some (dropTrailingWs cur).flatten).elim [] wordsOf) ++
            (ch :: tl).filter (fun ch => !isSpaceChunk ch) =
            L.filter (fun ch => !isSpaceChunk ch)
        have hlo := hline cur hgoodcur hchaincur
        rw [hlo, ← hrest, ← hfiltersplit, hfilter1]

/-! ### The whole wrap loop preserves the words -/

theorem wrapLoopF_words (width : Nat) (h0 : 0 < width) :
    ∀ (fuel : Nat) (hasLines : Bool) (L : List Str), ChunksInv width L →
      sumLen L + L.length < fuel →
      ((wrapLoopF width fuel hasLines L).map wordsOf).flatten =
        L.filter (fun ch => !isSpaceChunk ch) := by
  intro fuel
  induction fuel with
  | zero => intro hasLines L _ h; omega
  | succ fuel ih =>
    intro hasLines L hinv hfuel
    cases L with
    | nil => simp [wrapLoopF]
    | cons c cs =>
      obtain ⟨hinv2, hmu, hacc⟩ :=
        wrapStep_spec width h0 hasLines (c :: cs) hinv (by simp)
      rw [wrapLoopF]
      rcases hstep : wrapStep width hasLines (c :: cs) with ⟨lo, rest⟩
      rw [hstep] at hinv2 hmu hacc
      simp only at hinv2 hmu hacc
      have hrec := ih (match lo with | some _ => true | none => hasLines) rest hinv2 (by omega)
      rcases lo with _ | line
      · simp only [Option.elim, List.nil_append] at hacc
        rw [← hacc]
        exact ih hasLines rest hinv2 (by omega)
      · simp only [Option.elim] at hacc
        rw [List.map_cons, List.flatten_cons, ih true rest hinv2 (by omega), hacc]

/-! ### The initial chunk list of a hyphen-free caption -/

theorem emDashLookahead_false {c : Char} (hc : c ≠ '-') (cs : Str) :
    emDashLookahead (c :: cs) = false := by
  unfold emDashLookahead
  rw [List.takeWhile_cons_of_neg (by simp [hc])]
  simp

theorem grabWord_no_hyphen (prev : Str) :
    ∀ s : Str, '-' ∉ s → ∀ acc : Str,
      grabWord prev acc s =
        (acc.reverse ++ s.takeWhile (fun x => !twIsWs x),
          s.dropWhile (fun x => !twIsWs x)) := by
  intro s
  induction s with
  | nil => intro _ acc; simp [grabWord]
  | cons c cs ih =>
    intro hmem acc
    have hc : c ≠ '-' := fun hcc => hmem (hcc ▸ List.mem_cons_self c cs)
    have hcs : '-' ∉ cs := fun hx => hmem (List.mem_cons_of_mem c hx)
    rw [grabWord, if_neg (by simp [hc])]
    by_cases htw : twIsWs c
    · rw [if_pos htw]
      rw [List.takeWhile_cons_of_neg (by simp [htw]),
        List.dropWhile_cons_of_neg (by simp [htw])]
      simp
    · rw [if_neg htw, if_neg (by simp [emDashLookahead_false hc cs]), ih hcs (c :: acc)]
      rw [List.takeWhile_cons_of_pos (by simp [htw]),
        List.dropWhile_cons_of_pos (by simp [htw])]
      simp

theorem nextChunk_ws {c : Char} (htw : twIsWs c = true) (prev cs : Str) :
    nextChunk prev (c :: cs) =
      ((c :: cs).takeWhile twIsWs, (c :: cs).dropWhile twIsWs) := by
  rw [nextChunk, if_pos htw]

theorem nextChunk_word {c : Char} (htw : twIsWs c = false) (hc : '-' ∉ c :: cs)
    (prev : Str) :
    nextChunk prev (c :: cs) =
      ((c :: cs).takeWhile (fun x => !twIsWs x),
        (c :: cs).dropWhile (fun x => !twIsWs x)) := by
  have hch : c ≠ '-' := fun hcc => hc (hcc ▸ List.mem_cons_self c cs)
  have hcs : '-' ∉ cs := fun hx => hc (List.mem_cons_of_mem c hx)
  rw [nextChunk, if_neg (by simp [htw]),
    if_neg (by simp [emDashStart, emDashLookahead_false hch cs]),
    grabWord_no_hyphen prev cs hcs [c]]
  rw [List.takeWhile_cons_of_pos (by simp [htw]),
    List.dropWhile_cons_of_pos (by simp [htw])]
  simp

/-- For a hyphen-free text whose Python-whitespace characters are all plain
spaces and whose words all fit in `width`, the `wordsep_re` chunks satisfy
the wrap-loop invariant and their word chunks are exactly the words. -/
theorem splitChunksF_inv (width : Nat) :
    ∀ (fuel : Nat) (prev s : Str), s.length ≤ fuel → ('-' ∉ s) →
      (∀ c ∈ s, pyIsSpace c = true → c = ' ') →
      (∀ w ∈ wordsOf s, w.length ≤ width) →
      (∀ ch ∈ splitChunksF fuel prev s, GoodChunk width ch) ∧
      (splitChunksF fuel prev s).Chain'
        (fun a b => isSpaceChunk a = true ∨ isSpaceChunk b = true) ∧
      (splitChunksF fuel prev s).filter (fun ch => !isSpaceChunk ch) = wordsOf s := by
  intro fuel
  induction fuel with
  | zero =>
    intro prev s hlen _ _ _
    have hs : s = [] := List.length_eq_zero.mp (Nat.le_zero.mp hlen)
    subst hs
    refine ⟨fun ch hch => absurd hch (by simp [splitChunksF]), ?_, ?_⟩ <;>
      simp [splitChunksF]
  | succ fuel ih =>
    intro prev s hlen hhyp h1 h2
    cases s with
    | nil =>
      refine ⟨fun ch hch => absurd hch (by simp [splitChunksF]), ?_, ?_⟩ <;>
        simp [splitChunksF]
    | cons c cs =>
      rw [splitChunksF]
      by_cases htw : twIsWs c
      · -- whitespace run chunk
        have heq := nextChunk_ws htw prev cs
        rw [heq]
        simp only
        set chunk := (c :: cs).takeWhile twIsWs with hchunkdef
        set rest := (c :: cs).dropWhile twIsWs with hrestdef
        have hchne : chunk ≠ [] := by
          rw [hchunkdef, List.takeWhile_cons_of_pos htw]
          simp
        have hchtw : ∀ x ∈ chunk, twIsWs x = true := by
          intro x hx
          exact List.mem_takeWhile_imp hx
        have hchmem : ∀ x ∈ chunk, x ∈ c :: cs :=
          fun x hx => (List.takeWhile_sublist _).subset hx
        have hchsp : ∀ x ∈ chunk, x = ' ' := by
          intro x hx
          exact h1 x (hchmem x hx) (twIsWs_pyIsSpace (hchtw x hx))
        have hchsc : isSpaceChunk chunk = true :=
          List.all_eq_true.mpr (fun x hx => beq_iff_eq.mpr (hchsp x hx))
        have hrestmem : ∀ x ∈ rest, x ∈ c :: cs :=
          fun x hx => (List.dropWhile_sublist _).subset hx
        have happ : chunk ++ rest = c :: cs :=
          List.takeWhile_append_dropWhile twIsWs (c :: cs)
        have hwrest : wordsOf rest = wordsOf (c :: cs) := by
          conv_rhs => rw [← happ]
          exact ( wordsOfAux_ws_prefix chunk hchtw rest).symm
        have hrestlen : rest.length ≤ fuel := by
          have := congrArg List.length happ
          simp only [List.length_append, List.length_cons] at this
          have hcpos : 0 < chunk.length := List.length_pos.mpr hchne
          simp only [List.length_cons] at hlen
          omega
        obtain ⟨hg, hc2, hf⟩ := ih (chunk.reverse ++ prev) rest hrestlen
          (fun hx => hhyp (hrestmem _ hx))
          (fun x hx => h1 x (hrestmem x hx))
          (fun w hw => h2 w (by rw [← hwrest]; exact hw))
        refine ⟨?_, ?_, ?_⟩
        · intro ch hch
          rcases List.mem_cons.mp hch with rfl | hch2
          · exact ⟨hchne, Or.inl hchsp⟩
          · exact hg ch hch2
        · exact List.chain'_cons'.mpr ⟨fun y _ => Or.inl hchsc, hc2⟩
        · rw [List.filter_cons]
          simp only [hchsc, Bool.not_true]
          rw [hf, hwrest]
          simp
      · -- word chunk
        have hch : c ≠ '-' := fun hcc => hhyp (hcc ▸ List.mem_cons_self c cs)
        have htwf : twIsWs c = false := by
          rcases h : twIsWs c with _ | _
          · rfl
          · exact absurd h htw
        have heq := nextChunk_word htwf hhyp prev
        rw [heq]
        simp only
        set chunk := (c :: cs).takeWhile (fun x => !twIsWs x) with hchunkdef
        set rest := (c :: cs).dropWhile (fun x => !twIsWs x) with hrestdef
        have hchne : chunk ≠ [] := by
          rw [hchunkdef, List.takeWhile_cons_of_pos (by simp [htwf])]
          simp
        have hchnw : ∀ x ∈ chunk, twIsWs x = false := by
          intro x hx
          have := List.mem_takeWhile_imp hx
          simpa using this
        have hchmem : ∀ x ∈ chunk, x ∈ c :: cs :=
          fun x hx => (List.takeWhile_sublist _).subset hx
        have hchnpy : ∀ x ∈ chunk, pyIsSpace x = false := by
          intro x hx
          rcases hpy : pyIsSpace x with _ | _
          · rfl
          · have hsp := h1 x (hchmem x hx) hpy
            have := hchnw x hx
            rw [hsp] at this
            exact absurd this (by decide)
        have hrestmem : ∀ x ∈ rest, x ∈ c :: cs :=
          fun x hx => (List.dropWhile_sublist _).subset hx
        have happ : chunk ++ rest = c :: cs :=
          List.takeWhile_append_dropWhile (fun x => !twIsWs x) (c :: cs)
        -- the words of the text are the chunk followed by the rest's words
        have hwsplit : wordsOf (c :: cs) = chunk :: wordsOf rest := by
          conv_lhs => rw [← happ]
          rcases hre : rest with _ | ⟨d, rest2⟩
          · rw [List.append_nil, wordsOf_word chunk hchne hchnw, wordsOf_nil]
          · have hd : twIsWs d = true := by
              have h5 := List.head?_dropWhile_not (fun x => !twIsWs x) (c :: cs)
              rw [← hrestdef, hre] at h5
              simp only [List.head?_cons] at h5
              simpa using h5
            rw [wordsOf_append_sep hd chunk rest2,
              wordsOf_word chunk hchne hchnw,
              show wordsOf (d :: rest2) = wordsOf rest2 from wordsOfAux_ws_cons hd rest2]
            rfl
        have hchlen : chunk.length ≤ width := by
          apply h2
          rw [hwsplit]
          exact List.mem_cons_self _ _
        have hchsc : isSpaceChunk chunk = false := by
          rcases hchunk2 : chunk with _ | ⟨x, xs⟩
          · exact absurd hchunk2 hchne
          · rcases hsc : isSpaceChunk (x :: xs) with _ | _
            · rfl
            · have hx := List.all_eq_true.mp hsc x (List.mem_cons_self _ _)
              have := hchnw x (by rw [hchunk2]; exact List.mem_cons_self _ _)
              rw [beq_iff_eq.mp hx] at this
              exact absurd this (by decide)
        have hrestlen : rest.length ≤ fuel := by
          have := congrArg List.length happ
          simp only [List.length_append, List.length_cons] at this
          have hcpos : 0 < chunk.length := List.length_pos.mpr hchne
          simp only [List.length_cons] at hlen
          omega
        obtain ⟨hg, hc2, hf⟩ := ih (chunk.reverse ++ prev) rest hrestlen
          (fun hx => hhyp (hrestmem _ hx))
          (fun x hx => h1 x (hrestmem x hx))
          (fun w hw => h2 w (by rw [hwsplit]; exact List.mem_cons_of_mem _ hw))
        refine ⟨?_, ?_, ?_⟩
        · intro ch2 hch2
          rcases List.mem_cons.mp hch2 with rfl | hch3
          · exact ⟨hchne, Or.inr ⟨hchnpy, hchlen⟩⟩
          · exact hg ch2 hch3
        · refine List.chain'_cons'.mpr ⟨?_, hc2⟩
          intro y hy
          right
          obtain ⟨hflat, hne⟩ := splitChunksF_spec fuel (chunk.reverse ++ prev) rest hrestlen
          rcases hrec : splitChunksF fuel (chunk.reverse ++ prev) rest with _ | ⟨y0, ys⟩
          · rw [hrec] at hy
            cases hy
          · rw [hrec] at hy
            simp only [List.head?_cons, Option.mem_def, Option.some.injEq] at hy
            subst hy
            have hy0ne : y0 ≠ [] := hne y0 (by rw [hrec]; exact List.mem_cons_self _ _)
            rw [hrec] at hflat
            obtain ⟨e, es, hy0⟩ : ∃ e es, y0 = e :: es := by
              rcases y0 with _ | ⟨e, es⟩
              · exact absurd rfl hy0ne
              · exact ⟨e, es, rfl⟩
            -- the head of the next chunk is the head of rest, a whitespace char
            rcases hre : rest with _ | ⟨d, rest2⟩
            · rw [hre, hy0] at hflat
              simp at hflat
            · have hd : twIsWs d = true := by
                have h5 := List.head?_dropWhile_not (fun x => !twIsWs x) (c :: cs)
                rw [← hrestdef, hre] at h5
                simp only [List.head?_cons] at h5
                simpa using h5
              have hed : e = d := by
                rw [hre, hy0] at hflat
                simp only [List.flatten_cons, List.cons_append] at hflat
                have := congrArg List.head? hflat
                simpa using this
              have hy0good := hg y0 (by rw [hrec]; exact List.mem_cons_self _ _)
              rcases hy0good.2 with hsp | ⟨hnpy, _⟩
              · rw [hy0]
                exact List.all_eq_true.mpr
                  (fun x hx => beq_iff_eq.mpr (hsp x (hy0 ▸ hx)))
              · exfalso
                have h6 := hnpy e (by rw [hy0]; exact List.mem_cons_self _ _)
                rw [hed] at h6
                rw [twIsWs_pyIsSpace hd] at h6
                cases h6
        · rw [List.filter_cons]
          simp only [hchsc, Bool.not_false]
          rw [hf, hwsplit]
          rfl

/-- Claim C7: the renderer checks, before emitting any primitives, that the
composed text block fits horizontally within the cell bound minus the
code-glyph offset (`text_x` = glyph width `height * 1.01` plus padding) and
vertically within the cell bound; a failed check yields the fatal assertion
carrying the offending record with the measured and limit values, and
primitives are emitted only when both checks pass — never silently clipped. -/
theorem c7_renderer_bounds (O : DrawOracle) (width height : ℚ) (data : LabelData) :
    ((O.groupBounds (draw_placed O data)).2.2.1 >
        (O.labelBounds).2.2.1 - text_x height data.meta →
      draw_address O width height data =
        Except.error (DrawAssert.horizontal data
          (O.groupBounds (draw_placed O data)).2.2.1 (O.labelBounds).2.2.1)) ∧
    ((O.groupBounds (draw_placed O data)).2.2.1 ≤
        (O.labelBounds).2.2.1 - text_x height data.meta →
      (O.groupBounds (draw_placed O data)).2.2.2 > (O.labelBounds).2.2.2 →
      draw_address O width height data =
        Except.error (DrawAssert.vertical data
          (O.groupBounds (draw_placed O data)).2.2.2 (O.labelBounds).2.2.2)) ∧
    (∀ out : DrawOut, draw_address O width height data = Except.ok out →
      (O.groupBounds (draw_placed O data)).2.2.1 ≤
        (O.labelBounds).2.2.1 - text_x height data.meta ∧
      (O.groupBounds (draw_placed O data)).2.2.2 ≤ (O.labelBounds).2.2.2) := by
  refine ⟨?_, ?_, ?_⟩
  · intro h
    unfold draw_address
    rw [if_pos h]
  · intro h1 h2
    unfold draw_address
    rw [if_neg (not_lt.mpr h1), if_pos h2]
  · intro out h
    unfold draw_address at h
    by_cases h1 : (O.groupBounds (draw_placed O data)).2.2.1 >
        (O.labelBounds).2.2.1 - text_x height data.meta
    · rw [if_pos h1] at h
      cases h
    · by_cases h2 : (O.groupBounds (draw_placed O data)).2.2.2 >
          (O.labelBounds).2.2.2
      · rw [if_neg h1, if_pos h2] at h
        cases h
      · exact ⟨not_lt.mp h1, not_lt.mp h2⟩

/-- Witness for C7: an oracle whose group measures strictly wider than the
cell allows triggers the horizontal assertion with the record and values. -/
theorem c7_renderer_bounds_witness :
    draw_address testOracle 0 0 testData =
      Except.error (DrawAssert.horizontal testData 1 0) :=
  (c7_renderer_bounds testOracle 0 0 testData).1 (by
    show (1 : ℚ) > 0 - text_x 0 testData.meta
    simp [text_x, testData, testMeta])

/-! ### Claim C5: words preserved by the word-preserving break -/

/-- Claim C5 (counterexample): word-preserving mode does split inside a word.
With `max_len = 2` the single word `"aaaa"` is hard-broken by
`textwrap`'s `break_long_words` handling into `"aa"` and `"aa"`, so rejoining
the lines with single spaces yields the words `["aa", "aa"]`, not the
original single word `["aaaa"]`. -/
theorem c5_counterexample :
    break_word 2 (text_lines (['a', 'a', 'a', 'a'])) = [['a', 'a'], ['a', 'a']] ∧
    wordsOf (List.intercalate ([' '])
        (break_word 2 (text_lines (['a', 'a', 'a', 'a'])))) ≠
      wordsOf (['a', 'a', 'a', 'a']) := by
  decide

/-- Claim C5 (amended): for a caption without the line-break token, without
hyphens, whose Python-whitespace characters are all plain spaces, and whose
words all fit in the (positive) line width, word-preserving mode splits only
at whitespace: joining the produced lines with single spaces reproduces the
caption's words in order, none dropped, reordered, duplicated or cut. -/
theorem c5_amended (max_len : Nat) (text : Str)
    (h0 : 0 < max_len)
    (hnb : containsLineBreak text = false)
    (hhy : '-' ∉ text)
    (hws : ∀ c ∈ text, pyIsSpace c = true → c = ' ')
    (hfit : ∀ w ∈ wordsOf text, w.length ≤ max_len) :
    wordsOf (List.intercalate ([' ']) (break_word max_len (text_lines text))) =
      wordsOf text := by
  have hmem : ∀ c ∈ rstrip text, c ∈ text :=
    fun c hc => ( rstrip_prefix text).subset hc
  have hws2 : ∀ c ∈ rstrip text, pyIsSpace c = true → c = ' ' :=
    fun c hc => hws c (hmem c hc)
  have hhy2 : '-' ∉ rstrip text := fun h => hhy (hmem _ h)
  obtain ⟨t, ht, htws⟩ := rstrip_append text
  have htw : ∀ c ∈ t, twIsWs c = true := by
    intro c hc
    have hc2 : c ∈ text := by rw [ht]; exact List.mem_append_right _ hc
    rw [hws c hc2 (htws c hc)]
    decide
  have hwordsr : wordsOf text = wordsOf (rstrip text) := by
    conv_lhs => rw [ht]
    exact wordsOf_append_all_ws _ t htw
  have hfit2 : ∀ w ∈ wordsOf (rstrip text), w.length ≤ max_len := by
    intro w hw
    apply hfit
    rw [hwordsr]
    exact hw
  obtain ⟨hgood, hchain, hfilter⟩ :=
    splitChunksF_inv max_len (rstrip text).length [] (rstrip text)
      le_rfl hhy2 hws2 hfit2
  have hS : splitChunks (rstrip text) =
      splitChunksF (rstrip text).length [] (rstrip text) := rfl
  have hinv : ChunksInv max_len (splitChunks (rstrip text)) := by
    rw [hS]; exact ⟨hgood, hchain⟩
  have hfil2 : (splitChunks (rstrip text)).filter
      (fun ch => !isSpaceChunk ch) = wordsOf (rstrip text) := by
    rw [hS]; exact hfilter
  have hmunge : munge (rstrip text) = rstrip text := munge_id _ hws2
  have htl : text_lines text = [rstrip text] := by
    rw [text_lines, if_neg (by simp [hnb])]
  have hbw : break_word max_len (text_lines text) =
      wrap (rstrip text) max_len := by
    rw [htl, break_word]
    simp
  have hwrap : ((wrap (rstrip text) max_len).map wordsOf).flatten =
      wordsOf (rstrip text) := by
    rw [wrap, hmunge]
    rw [wrapLoopF_words max_len h0
      (sumLen (splitChunks (rstrip text)) + (splitChunks (rstrip text)).length + 1)
      false (splitChunks (rstrip text)) hinv (by omega)]
    exact hfil2
  rw [hbw, wordsOf_intercalate, hwrap, hwordsr]

/-- Witness for C5 (amended) at the caption `"ab cd"` with `max_len = 21`. -/
theorem c5_amended_witness :
    wordsOf (List.intercalate ([' '])
        (break_word 21 (text_lines (['a', 'b', ' ', 'c', 'd'])))) =
      wordsOf (['a', 'b', ' ', 'c', 'd']) :=
  c5_amended 21 (['a', 'b', ' ', 'c', 'd']) (by decide) (by decide)
    (by decide) (by decide) (by decide)

end QrLabels
